import Mathlib

set_option linter.unusedSectionVars false

/-
Verification of the PyStreets street-network / traffic-assignment core.

This file gives a shallow embedding, in Lean 4, of the Python sources
`street_network.py` and `simulation.py` (plus the constants of `settings.py`),
and proves or refutes the key correctness properties stated of them (C1-C10).

Modelling conventions:
* Python floats are modelled by exact ordered-field arithmetic.  Definitions
  that do not need `sqrt` are parametric in a `LinearOrderedField α` so that
  they can be evaluated at `α = ℚ`; the speed model (`calculate_driving_speed`)
  needs a square root and is therefore stated over `ℝ`.
* Python dicts keyed by node ids / street pairs are modelled as association
  lists looked up by first match (dict keys are unique in the source, so the
  two agree).
* Python `array("I", ...)` is a dense array of unsigned 32-bit counters that
  raises `OverflowError` past `2^32 - 1`; it is modelled as a `List ℕ` whose
  update operation fails (returns `none`) out of range or past `2^32 - 1`.
* Fallible Python code (KeyError / IndexError / a `while` loop that need not
  terminate) is modelled with `Option`; loops carry explicit fuel, chosen
  large enough that only genuinely diverging runs exhaust it.
* The shortest-path routine used by `StreetNetwork.calculate_shortest_paths`
  lives in the external `pygraph` library, whose code is not part of this
  repository.  It is modelled from the spec (see `dijkstraLoop` below).
-/

/-! ## Association-list helpers (Python dict, first-match semantics) -/

/-- Look up the first binding of key `k` in an association list. -/
def alookup {κ β : Type} [DecidableEq κ] : List (κ × β) → κ → Option β
  | [], _ => none
  | e :: rest, k => if e.1 = k then some e.2 else alookup rest k

/-- Rewrite, in place, the value of the first binding of key `k`
(no-op when the key is absent), like mutating a dict entry. -/
def aupdate {κ β : Type} [DecidableEq κ] : List (κ × β) → κ → (β → β) → List (κ × β)
  | [], _, _ => []
  | e :: rest, k, f => if e.1 = k then (e.1, f e.2) :: rest else e :: aupdate rest k f

theorem alookup_aupdate_ne {κ β : Type} [DecidableEq κ]
    (l : List (κ × β)) (k k' : κ) (f : β → β) (h : k' ≠ k) :
    alookup (aupdate l k f) k' = alookup l k' := by
  induction l with
  | nil => rfl
  | cons e rest ih =>
    by_cases he : e.1 = k
    · simp only [aupdate, he, if_pos]
      simp only [alookup]
      rw [if_neg (by simpa [he] using h.symm), if_neg (by simpa [he] using h.symm)]
    · simp only [aupdate, he, if_neg, not_false_iff]
      by_cases he' : e.1 = k'
      · simp [alookup, he']
      · simp [alookup, he', ih]

theorem alookup_aupdate_eq {κ β : Type} [DecidableEq κ]
    (l : List (κ × β)) (k : κ) (f : β → β) :
    alookup (aupdate l k f) k = (alookup l k).map f := by
  induction l with
  | nil => rfl
  | cons e rest ih =>
    by_cases he : e.1 = k
    · simp [aupdate, alookup, he]
    · simp [aupdate, alookup, he, ih]

/-! ## The street network (`street_network.py`) -/

/-- Per-edge data of a street: the attribute list
`[index, length, max_speed, number_of_lanes]` plus the mutable edge weight
`driving_time` stored on the graph edge. -/
structure StreetData (α : Type) where
  index : ℕ
  length : α
  max_speed : α
  number_of_lanes : α
  driving_time : α
  deriving Repr, DecidableEq

/-- `StreetNetwork`: a directed graph of streets.  `nodes` is the node list,
`streets` maps a directed pair (origin, destination) to its data,
`street_index` is the running sequential index counter and `streets_by_index`
the inverse index-to-street dict. -/
structure StreetNetwork (α : Type) where
  nodes : List ℕ
  streets : List ((ℕ × ℕ) × StreetData α)
  street_index : ℕ
  streets_by_index : List (ℕ × (ℕ × ℕ))
  deriving Repr, DecidableEq

namespace StreetNetwork

variable {α : Type} [LinearOrderedField α]

/-- The empty street network (`StreetNetwork.__init__`). -/
def empty : StreetNetwork α := ⟨[], [], 0, []⟩

/-- `has_street`. -/
def has_street (net : StreetNetwork α) (street : ℕ × ℕ) : Bool :=
  (alookup net.streets street).isSome

/-- `add_node(node, longitude, latitude)` (coordinates are irrelevant to the
claims and omitted; the underlying digraph ignores duplicates' attributes). -/
def add_node (net : StreetNetwork α) (node : ℕ) : StreetNetwork α :=
  { net with nodes := net.nodes ++ [node] }

/-- `add_street(street, length, max_speed, number_of_lanes)`: records the
attribute list `[street_index, length, max_speed, number_of_lanes]`, sets the
initial weight to the ideal driving time `length / max_speed`, registers the
street in the index dict and bumps the index counter.  A duplicate directed
pair is rejected (the underlying digraph refuses duplicate edges). -/
def add_street (net : StreetNetwork α) (street : ℕ × ℕ) (length max_speed : α)
    (number_of_lanes : α := 1) : StreetNetwork α :=
  if net.has_street street then net
  else
    { net with
      streets := net.streets ++
        [(street, ⟨net.street_index, length, max_speed, number_of_lanes,
          length / max_speed⟩)],
      streets_by_index := net.streets_by_index ++ [(net.street_index, street)],
      street_index := net.street_index + 1 }

/-- `set_driving_time(street, driving_time)`. -/
def set_driving_time (net : StreetNetwork α) (street : ℕ × ℕ) (t : α) :
    StreetNetwork α :=
  { net with streets := aupdate net.streets street (fun d => { d with driving_time := t }) }

/-- `get_driving_time(street)`; `none` models the KeyError on a missing edge. -/
def get_driving_time (net : StreetNetwork α) (street : ℕ × ℕ) : Option α :=
  (alookup net.streets street).map (·.driving_time)

/-- `get_street_index(street)`; `none` models the KeyError on a missing edge. -/
def get_street_index (net : StreetNetwork α) (street : ℕ × ℕ) : Option ℕ :=
  (alookup net.streets street).map (·.index)

/-- `get_street_by_index(street_index)` (returns `None` when absent). -/
def get_street_by_index (net : StreetNetwork α) (street_index : ℕ) : Option (ℕ × ℕ) :=
  alookup net.streets_by_index street_index

/-- The max speed currently recorded for a street. -/
def get_max_speed (net : StreetNetwork α) (street : ℕ × ℕ) : Option α :=
  (alookup net.streets street).map (·.max_speed)

/-- `change_max_speed(street, max_speed_delta)`: clamps the new max speed into
`[1, 140]`.  The Python method body contains **no** `return` statement, so the
caller always receives `None`; the returned value is modelled as
`Option Bool`, with `none` standing for Python's `None`. -/
def change_max_speed (net : StreetNetwork α) (street : ℕ × ℕ) (delta : α) :
    StreetNetwork α × Option Bool :=
  ({ net with
      streets := aupdate net.streets street
        (fun d => { d with max_speed := max 1 (min 140 (d.max_speed + delta)) }) },
   none)

end StreetNetwork

/-! ## Traffic load and the assignment walk (`simulation.py`, `Simulation.step`) -/

/-- `settings["trip_volume"]`. -/
def settings_trip_volume : ℕ := 1

/-- `self.traffic_load[street_index] += usage` on an `array("I", ...)`:
fails (`none`) on an out-of-range index (IndexError) or when the unsigned
32-bit cell would overflow (OverflowError). -/
def updateLoad (load : List ℕ) (idx usage : ℕ) : Option (List ℕ) :=
  if h : idx < load.length then
    if load.get ⟨idx, h⟩ + usage < 2 ^ 32 then
      some (load.set idx (load.get ⟨idx, h⟩ + usage))
    else none
  else none

namespace Simulation

variable {α : Type} [LinearOrderedField α]

/-- The backward walk of `Simulation.step` (lines 59-65):

    current = goal
    while current != origin:
        street = (min(current, paths[current]), max(current, paths[current]))
        current = paths[current]
        usage = settings["trip_volume"]
        street_index = self.street_network.get_street_index(street)
        self.traffic_load[street_index] += usage

`paths` is the predecessor map; `fuel` bounds the number of hops (a run that
exhausts it corresponds to a `while` loop that never reaches `origin`).
`none` models a KeyError / IndexError / OverflowError aborting the step. -/
def walk_load (net : StreetNetwork α) (paths : List (ℕ × ℕ)) (origin usage : ℕ) :
    ℕ → ℕ → List ℕ → Option (List ℕ)
  | fuel, current, load =>
    if current = origin then some load
    else
      match fuel with
      | 0 => none
      | fuel + 1 =>
        (alookup paths current).bind fun pred =>
        (StreetNetwork.get_street_index net (min current pred, max current pred)).bind fun idx =>
        (updateLoad load idx usage).bind fun load' =>
        walk_load net paths origin usage fuel pred load'

/-- The chain of predecessor hops `(current, pred)` followed by the backward
walk from `goal` until `origin` is reached; `none` when `origin` is not
reached within `fuel` hops or a predecessor is missing. -/
def predChain (paths : List (ℕ × ℕ)) (origin : ℕ) :
    ℕ → ℕ → Option (List (ℕ × ℕ))
  | fuel, current =>
    if current = origin then some []
    else
      match fuel with
      | 0 => none
      | fuel + 1 =>
        (alookup paths current).bind fun pred =>
        (predChain paths origin fuel pred).map ((current, pred) :: ·)

/-- Apply the load increments of a list of predecessor hops: each hop
`(current, pred)` increments the load entry of the orientation-normalized
street `(min current pred, max current pred)` by `usage`. -/
def applyHops (net : StreetNetwork α) (usage : ℕ) :
    List ℕ → List (ℕ × ℕ) → Option (List ℕ)
  | load, [] => some load
  | load, (current, pred) :: rest =>
    (StreetNetwork.get_street_index net (min current pred, max current pred)).bind fun idx =>
    (updateLoad load idx usage).bind fun load' =>
    applyHops net usage load' rest

/-- One iteration of the goal loop of `Simulation.step` (lines 55-65): skip a
goal that is absent from the predecessor map, otherwise run the backward walk.
The fuel `paths.length + 1` is enough for every terminating walk (a longer
walk revisits a key of `paths` and hence loops forever). -/
def assign_goal (net : StreetNetwork α) (paths : List (ℕ × ℕ))
    (origin goal usage : ℕ) (load : List ℕ) : Option (List ℕ) :=
  if (alookup paths goal).isSome then
    walk_load net paths origin usage (paths.length + 1) goal load
  else some load

end Simulation

/-! ## The shortest-path engine

`StreetNetwork.calculate_shortest_paths` delegates to
`pygraph.algorithms.minmax.shortest_path`, an external library that is not
part of this repository's sources.  Modelled from the spec: single-source
shortest path over the graph's `driving_time` weights by priority-queue
relaxation (Dijkstra), ties broken by discovery order, returning a map from
every reachable node (excluding the origin) to its predecessor on the optimal
path; unreachable nodes are simply absent and an unknown origin reaches
nothing — no error. -/

namespace SPE

variable {α : Type} [LinearOrderedField α]

/-- The weight of the directed edge `(u, v)`, i.e. its `driving_time`. -/
def edgeWeight (net : StreetNetwork α) (u v : ℕ) : Option α :=
  (alookup net.streets (u, v)).map (·.driving_time)

/-- Outgoing neighbors of `u` with edge weights. -/
def neighbors (net : StreetNetwork α) (u : ℕ) : List (ℕ × α) :=
  net.streets.filterMap fun e =>
    if e.1.1 = u then some (e.1.2, e.2.driving_time) else none

/-- A Dijkstra entry: node, tentative distance, predecessor
(`none` only for the origin). -/
abbrev DEntry (α : Type) := ℕ × α × Option ℕ

/-- The entry with the smallest distance, earliest first on ties
(the spec's deterministic discovery-order tie-break). -/
def findMin : List (DEntry α) → Option (DEntry α)
  | [] => none
  | e :: rest =>
    match findMin rest with
    | none => some e
    | some m => if m.2.1 < e.2.1 then some m else some e

/-- Remove the entry of a key from the frontier. -/
def eraseKey (k : ℕ) (l : List (DEntry α)) : List (DEntry α) :=
  l.filter fun e => e.1 ≠ k

/-- Relax one outgoing edge `(w, wt)` of a node `v` settled at distance `dv`:
already-settled targets are skipped, a known frontier target is improved when
strictly better, an unknown target is appended (discovery order). -/
def relaxOne (settled : List ℕ) (v : ℕ) (dv : α) (front : List (DEntry α))
    (e : ℕ × α) : List (DEntry α) :=
  if e.1 ∈ settled then front
  else
    match alookup front e.1 with
    | some d' => if dv + e.2 < d'.1 then aupdate front e.1 (fun _ => (dv + e.2, some v)) else front
    | none => front ++ [(e.1, dv + e.2, some v)]

/-- Relax every outgoing edge of `v`. -/
def relaxAll (net : StreetNetwork α) (settled : List ℕ) (v : ℕ) (dv : α)
    (front : List (DEntry α)) : List (DEntry α) :=
  (neighbors net v).foldl (relaxOne settled v dv) front

/-- The main Dijkstra loop: repeatedly settle the frontier entry with the
smallest tentative distance and relax its outgoing edges.  `fuel` bounds the
number of rounds; every round settles a distinct node of the graph, so
`net.nodes.length` rounds always suffice. -/
def dijkstraLoop (net : StreetNetwork α) :
    ℕ → List (DEntry α) → List (DEntry α) → List (DEntry α)
  | 0, res, _ => res
  | fuel + 1, res, front =>
    match findMin front with
    | none => res
    | some e =>
      dijkstraLoop net fuel (res ++ [e])
        (relaxAll net ((res.map (·.1)) ++ [e.1]) e.1 e.2.1 (eraseKey e.1 front))

/-- All settled entries for a run from `origin`: the origin is settled first
at distance `0` with no predecessor, then the loop runs on its relaxed
out-edges. -/
def dijkstraRes (net : StreetNetwork α) (origin : ℕ) : List (DEntry α) :=
  dijkstraLoop net net.nodes.length [(origin, 0, none)]
    (relaxAll net [origin] origin 0 [])

/-- `calculate_shortest_paths(origin_node)`: the predecessor map, from every
settled node other than the origin to its predecessor on the optimal path. -/
def dijkstraPrev (net : StreetNetwork α) (origin : ℕ) : List (ℕ × ℕ) :=
  (dijkstraRes net origin).filterMap fun e => e.2.2.map (fun u => (e.1, u))

/-- `CostReaches net u v c`: there is a directed path from `u` to `v` in
`net` whose total `driving_time` is `c`. -/
inductive CostReaches (net : StreetNetwork α) (u : ℕ) : ℕ → α → Prop
  | refl : CostReaches net u u 0
  | tail {v w : ℕ} {c wt : α} : CostReaches net u v c →
      edgeWeight net v w = some wt → CostReaches net u w (c + wt)

/-- Follow a predecessor map from `v` back to `origin`, summing the weights
of the traversed directed edges `(pred, current)`. -/
def followCost (net : StreetNetwork α) (prev : List (ℕ × ℕ)) (origin : ℕ) :
    ℕ → ℕ → Option α
  | fuel, v =>
    if v = origin then some 0
    else
      match fuel with
      | 0 => none
      | fuel + 1 =>
        match alookup prev v with
        | none => none
        | some u =>
          match followCost net prev origin fuel u, edgeWeight net u v with
          | some c, some wt => some (c + wt)
          | _, _ => none

end SPE

namespace Simulation

variable {α : Type} [LinearOrderedField α]

/-- The body of the origin loop of `Simulation.step` (lines 49-65): compute
all shortest paths from `origin`, then assign every goal of that origin. -/
def assign_goals (net : StreetNetwork α) (paths : List (ℕ × ℕ))
    (origin usage : ℕ) : List ℕ → List ℕ → Option (List ℕ)
  | load, [] => some load
  | load, goal :: rest =>
    (assign_goal net paths origin goal usage load).bind fun load' =>
    assign_goals net paths origin usage load' rest

/-- One origin of the assignment phase:
`paths = self.street_network.calculate_shortest_paths(origin)` followed by the
goal loop. -/
def assign_origin (net : StreetNetwork α) (origin : ℕ) (goals : List ℕ)
    (usage : ℕ) (load : List ℕ) : Option (List ℕ) :=
  assign_goals net (SPE.dijkstraPrev net origin) origin usage load goals

/-- The whole assignment phase: the loop over `self.trips.keys()`. -/
def assignAll (net : StreetNetwork α) (usage : ℕ) :
    List ℕ → List (ℕ × List ℕ) → Option (List ℕ)
  | load, [] => some load
  | load, (origin, goals) :: rest =>
    (assign_origin net origin goals usage load).bind fun load' =>
    assignAll net usage load' rest

end Simulation

/-- The mutable state of a `Simulation` object.  `traffic_load` is an
`Option` because `road_construction` assigns `None` to it. -/
structure SimulationState (α : Type) where
  street_network : StreetNetwork α
  trips : List (ℕ × List ℕ)
  jam_tolerance : α
  step_counter : ℕ
  traffic_load : Option (List ℕ)
  deriving Repr, DecidableEq

namespace Simulation

variable {α : Type} [LinearOrderedField α]

/-- `Simulation.__init__`: the traffic load starts as an all-zero dense array
of length `street_network.street_index`. -/
def mkSimulation (net : StreetNetwork α) (trips : List (ℕ × List ℕ))
    (jam_tolerance : α) : SimulationState α :=
  ⟨net, trips, jam_tolerance, 0, some (List.replicate net.street_index 0)⟩

/-- Truthiness of the value returned by `change_max_speed` as seen by
`road_construction`'s `if not ...`: Python's `None` and `False` are falsy. -/
def pyTruthy : Option Bool → Bool
  | some true => true
  | _ => false

/-- One iteration `i` of the `road_construction` loop (lines 77-86), acting on
the street list `sorted_traffic_load` (`order`, ascending by load), the two
rational window indices, and the network; returns the updated triple. -/
def rc_iter (net : StreetNetwork α) (order : List (ℕ × ℕ)) (n i : ℕ)
    (maxDec minInc : ℚ) : StreetNetwork α × ℚ × ℚ :=
  let (net₁, maxDec₁) :=
    if (i : ℚ) ≤ maxDec then
      let (net', r) := net.change_max_speed (order.getD i (0, 0)) (-20)
      (net', if pyTruthy r then maxDec else maxDec + 1)
    else (net, maxDec)
  let j := n - 1 - i
  let (net₂, minInc₁) :=
    if (j : ℚ) ≥ minInc then
      let (net', r) := net₁.change_max_speed (order.getD j (0, 0)) 20
      (net', if pyTruthy r then minInc else minInc - 1)
    else (net₁, minInc)
  (net₂, maxDec₁, minInc₁)

/-- The `road_construction` loop from iteration `i` on: run `rc_iter`, then
stop early if the two windows have crossed (`max_decrease_index >=
min_increase_index`).  The structural `fuel` is the number of loop iterations
still possible; the top-level call passes `n`, which is exact for
`for i in range(n)`. -/
def rc_loop (order : List (ℕ × ℕ)) (n : ℕ) :
    ℕ → StreetNetwork α → ℕ → ℚ → ℚ → StreetNetwork α
  | 0, net, _, _, _ => net
  | fuel + 1, net, i, maxDec, minInc =>
    if i < n then
      let (net₂, maxDec₁, minInc₁) := rc_iter net order n i maxDec minInc
      if maxDec₁ ≥ minInc₁ then net₂
      else rc_loop order n fuel net₂ (i + 1) maxDec₁ minInc₁
    else net

/-- The street list sorted ascending by the previous step's load
(`sorted(dict_traffic_load.iteritems(), key=itemgetter(1))`; Python's sort is
stable, and the dict enumerates the streets by index). -/
def rc_order (net : StreetNetwork α) (load : List ℕ) : List (ℕ × ℕ) :=
  (((List.range load.length).map fun i =>
      ((net.get_street_by_index i).getD (0, 0), load.getD i 0)).insertionSort
    fun a b => a.2 ≤ b.2).map (·.1)

/-- `Simulation.road_construction`: a one-shot pass over the streets sorted by
load — decrease `max_speed` on the bottom window, increase on the top window —
then `self.traffic_load = None`. -/
def road_construction (sim : SimulationState α) : SimulationState α :=
  let load := sim.traffic_load.getD []
  let order := rc_order sim.street_network load
  let n := order.length
  { sim with
    street_network :=
      rc_loop order n n sim.street_network 0 ((15 : ℚ) / 100 * n) ((95 : ℚ) / 100 * n),
    traffic_load := none }

end Simulation

/-! ## The speed model (`calculate_driving_speed`) and the full step -/

/-- `settings["car_length"]` (m). -/
def settings_car_length : ℝ := 4

/-- `settings["min_breaking_distance"]` (m). -/
noncomputable def settings_min_breaking_distance : ℝ := 1 / 1000

/-- `settings["braking_deceleration"]` (m/s²). -/
noncomputable def settings_braking_deceleration : ℝ := 15 / 2

/-- `calculate_driving_speed(street_length, max_speed, number_of_trips,
number_of_lanes)` (lines 90-100): distribute the trips over the street, floor
the braking distance, convert the achievable braking-limited speed to km/h and
respect the speed limit. -/
noncomputable def calculate_driving_speed (street_length max_speed : ℝ)
    (number_of_trips : ℕ) (number_of_lanes : ℝ := 1) : ℝ :=
  let available_space_for_each_car :=
    street_length * number_of_lanes / max (number_of_trips : ℝ) number_of_lanes
  let available_braking_distance :=
    max (available_space_for_each_car - settings_car_length)
      settings_min_breaking_distance
  let potential_speed :=
    Real.sqrt (settings_braking_deceleration * available_braking_distance * 2)
  min max_speed (potential_speed * 3.6)

namespace Simulation

/-- The driving time written by the re-weighting loop of `Simulation.step`
(lines 31-43) for one street: blend ideal and actual speed by the jam
tolerance and divide the length by the perceived speed. -/
noncomputable def street_driving_time (jam_tolerance : ℝ) (length max_speed : ℝ)
    (street_traffic_load : ℕ) (number_of_lanes : ℝ) : ℝ :=
  let ideal_speed := calculate_driving_speed length max_speed 0 number_of_lanes
  let actual_speed :=
    calculate_driving_speed length max_speed street_traffic_load number_of_lanes
  let perceived_speed := actual_speed + (ideal_speed - actual_speed) * jam_tolerance
  length / perceived_speed

/-- The re-weighting phase of `Simulation.step`: update every street's
`driving_time` from the previous step's traffic load.  (Python reads
`self.traffic_load[street_index]` and would raise an IndexError on an
out-of-range street index; theorems about `reweight` therefore carry the
in-range hypothesis explicitly and the model reads a default of `0`.) -/
noncomputable def reweight (net : StreetNetwork ℝ) (jam_tolerance : ℝ)
    (load : List ℕ) : StreetNetwork ℝ :=
  { net with
    streets := net.streets.map fun e =>
      (e.1, { e.2 with
        driving_time := street_driving_time jam_tolerance e.2.length e.2.max_speed
          (load.getD e.2.index 0) e.2.number_of_lanes }) }

/-- `Simulation.step`: bump the step counter, re-weight every street from the
previous load, reset the load array to all-zero, then replay all trips through
the shortest-path engine accumulating load.  `none` models an uncaught Python
exception aborting the step (including reading a `traffic_load` that
`road_construction` left as `None`). -/
noncomputable def step (sim : SimulationState ℝ) : Option (SimulationState ℝ) :=
  sim.traffic_load.bind fun load =>
    let net₁ := reweight sim.street_network sim.jam_tolerance load
    let load₀ : List ℕ := List.replicate net₁.street_index 0
    (assignAll net₁ settings_trip_volume load₀ sim.trips).map fun load' =>
      { sim with
        street_network := net₁,
        step_counter := sim.step_counter + 1,
        traffic_load := some load' }

end Simulation

/-! ## Properties of the assignment walk -/

namespace Simulation

variable {α : Type} [LinearOrderedField α]

theorem updateLoad_sum {load : List ℕ} {idx usage : ℕ} {load' : List ℕ}
    (h : updateLoad load idx usage = some load') :
    load'.sum = load.sum + usage := by
  unfold updateLoad at h
  split at h
  · split at h
    · cases h
      rename_i hlt _
      clear * - hlt
      induction load generalizing idx with
      | nil => simp at hlt
      | cons a t ih =>
        cases idx with
        | zero => simp [List.sum_cons]; omega
        | succ i =>
          simp only [List.length_cons, Nat.succ_lt_succ_iff] at hlt
          simp only [List.set, List.get, List.sum_cons, ih hlt]
          omega
    · cases h
  · cases h

theorem updateLoad_length {load : List ℕ} {idx usage : ℕ} {load' : List ℕ}
    (h : updateLoad load idx usage = some load') :
    load'.length = load.length := by
  unfold updateLoad at h
  split at h
  · split at h
    · cases h; simp
    · cases h
  · cases h

/-- The backward walk, when it terminates, performs exactly the increments of
its predecessor-hop chain: each hop `(current, pred)` goes to the load entry
of the orientation-normalized street `(min current pred, max current pred)`. -/
theorem walk_load_eq_applyHops (net : StreetNetwork α) (paths : List (ℕ × ℕ))
    (origin usage : ℕ) :
    ∀ (fuel goal : ℕ) (load : List ℕ) (hops : List (ℕ × ℕ)),
      predChain paths origin fuel goal = some hops →
      walk_load net paths origin usage fuel goal load = applyHops net usage load hops := by
  intro fuel
  induction fuel with
  | zero =>
    intro goal load hops hchain
    unfold predChain at hchain
    unfold walk_load
    by_cases hg : goal = origin
    · simp [hg] at hchain
      subst hchain
      simp [hg, applyHops]
    · simp [hg] at hchain
  | succ fuel ih =>
    intro goal load hops hchain
    unfold predChain at hchain
    unfold walk_load
    by_cases hg : goal = origin
    · simp [hg] at hchain
      subst hchain
      simp [hg, applyHops]
    · simp only [hg, if_neg, not_false_iff, if_false]
      rw [if_neg hg] at hchain
      cases hp : alookup paths goal with
      | none => rw [hp] at hchain; cases hchain
      | some pred =>
        rw [hp] at hchain
        simp only [Option.some_bind, Option.map_eq_some'] at hchain
        obtain ⟨rest, hrest, hhops⟩ := hchain
        subst hhops
        simp only [Option.some_bind, applyHops]
        cases hidx : StreetNetwork.get_street_index net (min goal pred, max goal pred) with
        | none => simp [hidx]
        | some idx =>
          simp only [hidx, Option.some_bind]
          cases hupd : updateLoad load idx usage with
          | none => simp [hupd]
          | some load' =>
            simp only [hupd, Option.some_bind]
            exact ih pred load' rest hrest

theorem applyHops_sum (net : StreetNetwork α) (usage : ℕ) :
    ∀ (hops : List (ℕ × ℕ)) (load load' : List ℕ),
      applyHops net usage load hops = some load' →
      load'.sum = load.sum + usage * hops.length := by
  intro hops
  induction hops with
  | nil =>
    intro load load' h
    cases h
    simp
  | cons hop rest ih =>
    intro load load' h
    unfold applyHops at h
    cases hidx : StreetNetwork.get_street_index net (min hop.1 hop.2, max hop.1 hop.2) with
    | none => simp [hidx] at h
    | some idx =>
      rw [hidx, Option.some_bind] at h
      cases hupd : updateLoad load idx usage with
      | none => simp [hupd] at h
      | some load₁ =>
        rw [hupd, Option.some_bind] at h
        have := ih load₁ load' h
        rw [this, updateLoad_sum hupd, List.length_cons, Nat.mul_succ]
        ring

theorem applyHops_length (net : StreetNetwork α) (usage : ℕ) :
    ∀ (hops : List (ℕ × ℕ)) (load load' : List ℕ),
      applyHops net usage load hops = some load' →
      load'.length = load.length := by
  intro hops
  induction hops with
  | nil => intro load load' h; cases h; rfl
  | cons hop rest ih =>
    intro load load' h
    unfold applyHops at h
    cases hidx : StreetNetwork.get_street_index net (min hop.1 hop.2, max hop.1 hop.2) with
    | none => simp [hidx] at h
    | some idx =>
      rw [hidx, Option.some_bind] at h
      cases hupd : updateLoad load idx usage with
      | none => simp [hupd] at h
      | some load₁ =>
        rw [hupd, Option.some_bind] at h
        rw [ih load₁ load' h, updateLoad_length hupd]

end Simulation

/-! ## Example networks (rational weights, for concrete evaluation) -/

/-- A two-node network with both directed streets between nodes 1 and 2:
`(1, 2)` gets index 0 and `(2, 1)` gets index 1. -/
def netTwoWay : StreetNetwork ℚ :=
  (((StreetNetwork.empty.add_node 1).add_node 2).add_street (1, 2) 10 50).add_street
    (2, 1) 10 50

/-- The three-node chain of `simulation.py`'s `__main__` block:
streets `(1, 2)` (index 0) and `(2, 3)` (index 1). -/
def netChain : StreetNetwork ℚ :=
  ((((StreetNetwork.empty.add_node 1).add_node 2).add_node 3).add_street
      (1, 2) 10 50).add_street (2, 3) 100 140

/-- The predecessor map toward origin 1 on `netChain`. -/
def pathsChain : List (ℕ × ℕ) := [(2, 1), (3, 2)]

/-- C1 (counterexample).  On `netTwoWay` the shortest path from origin 2 to
goal 1 drives the directed edge `(2, 1)` (index 1), yet the walk of
`Simulation.step` increments the entry of the normalized pair `(1, 2)`
(index 0): the load lands on the reverse edge, so the directed edge actually
driven does *not* receive the load. -/
theorem directed_edge_load_counterexample :
    SPE.dijkstraPrev netTwoWay 2 = [(1, 2)] ∧
    netTwoWay.get_street_index (2, 1) = some 1 ∧
    netTwoWay.get_street_index (1, 2) = some 0 ∧
    Simulation.assign_goal netTwoWay [(1, 2)] 2 1 1 [0, 0] = some [1, 0] := by
  refine ⟨by decide, by decide, by decide, by decide⟩

/-- C1 (amended).  During a simulation step, the backward walk from a goal
whose predecessor chain reaches the origin increments, for each traversed hop
`(current, pred)`, the load entry of the orientation-*normalized* street
`(min current pred, max current pred)` by the configured trip volume — which
is the directed edge actually driven only when the predecessor is the smaller
node id. -/
theorem walk_increments_normalized_pairs {α : Type} [LinearOrderedField α]
    (net : StreetNetwork α) (paths : List (ℕ × ℕ)) (origin usage fuel goal : ℕ)
    (load : List ℕ) (hops : List (ℕ × ℕ))
    (hchain : Simulation.predChain paths origin fuel goal = some hops) :
    Simulation.walk_load net paths origin usage fuel goal load =
      Simulation.applyHops net usage load hops :=
  Simulation.walk_load_eq_applyHops net paths origin usage fuel goal load hops hchain

/-- Witness for C1 (amended) on the concrete chain network. -/
theorem walk_increments_normalized_pairs_witness :
    Simulation.walk_load netChain pathsChain 1 1 3 3 [0, 0] =
      Simulation.applyHops netChain 1 [0, 0] [(3, 2), (2, 1)] :=
  walk_increments_normalized_pairs netChain pathsChain 1 1 3 3 [0, 0]
    [(3, 2), (2, 1)] (by decide)

/-- C7.  Assigning one trip of volume `usage` whose goal's predecessor chain
reaches the origin in `hops.length` hops increases the total summed load by
exactly `usage * hops.length` (given that every per-hop street lookup and
array update succeeds, i.e. the walk returns a load array). -/
theorem trip_volume_conservation {α : Type} [LinearOrderedField α]
    (net : StreetNetwork α) (paths : List (ℕ × ℕ)) (origin usage fuel goal : ℕ)
    (load : List ℕ) (hops : List (ℕ × ℕ)) (load' : List ℕ)
    (hchain : Simulation.predChain paths origin fuel goal = some hops)
    (hwalk : Simulation.walk_load net paths origin usage fuel goal load = some load') :
    load'.sum = load.sum + usage * hops.length := by
  rw [Simulation.walk_load_eq_applyHops net paths origin usage fuel goal load hops hchain]
    at hwalk
  exact Simulation.applyHops_sum net usage hops load load' hwalk

/-- Witness for C7: the single trip 1 → 3 on the chain network adds
`1 * 2` to the total load. -/
theorem trip_volume_conservation_witness :
    ([1, 1] : List ℕ).sum = ([0, 0] : List ℕ).sum + 1 * 2 :=
  trip_volume_conservation netChain pathsChain 1 1 3 3 [0, 0] [(3, 2), (2, 1)]
    [1, 1] (by decide) (by decide)

/-- C10.  A trip whose goal equals its origin contributes no load and never
fails: if the goal is absent from the predecessor map it is skipped, and
otherwise the backward walk terminates immediately (`current == origin`
before the first hop), leaving the load array unchanged. -/
theorem trip_goal_eq_origin_no_load {α : Type} [LinearOrderedField α]
    (net : StreetNetwork α) (paths : List (ℕ × ℕ)) (origin usage : ℕ)
    (load : List ℕ) :
    Simulation.assign_goal net paths origin origin usage load = some load := by
  unfold Simulation.assign_goal
  split
  · unfold Simulation.walk_load
    simp
  · rfl

/-! ## `change_max_speed` and `road_construction` -/

namespace StreetNetwork

variable {α : Type} [LinearOrderedField α]

theorem get_max_speed_change_eq (net : StreetNetwork α) (s : ℕ × ℕ) (delta : α) :
    (net.change_max_speed s delta).1.get_max_speed s =
      (net.get_max_speed s).map (fun v => max 1 (min 140 (v + delta))) := by
  unfold change_max_speed get_max_speed
  simp only [alookup_aupdate_eq, Option.map_map]
  rfl

theorem get_max_speed_change_ne (net : StreetNetwork α) (s s' : ℕ × ℕ) (delta : α)
    (h : s' ≠ s) :
    (net.change_max_speed s delta).1.get_max_speed s' = net.get_max_speed s' := by
  unfold change_max_speed get_max_speed
  rw [alookup_aupdate_ne _ _ _ _ h]

end StreetNetwork

/-- C3.  `change_max_speed` does set the street's max speed to the clamped
value, but its Python body has no `return` statement: the caller always
receives `None` (falsy, read as "no real change"), even at an input where a
real change occurred — here street `(1, 2)` goes from max speed 50 to 30, a
real change, yet the reported value is `None` rather than a truthy
real-change indicator. -/
theorem change_max_speed_reports_nothing :
    (∀ (net : StreetNetwork ℚ) (street : ℕ × ℕ) (delta : ℚ),
      (net.change_max_speed street delta).2 = none) ∧
    (netChain.change_max_speed (1, 2) (-20)).1.get_max_speed (1, 2) = some 30 ∧
    netChain.get_max_speed (1, 2) = some 50 := by
  have h50 : netChain.get_max_speed (1, 2) = some 50 := by decide
  refine ⟨fun _ _ _ => rfl, ?_, h50⟩
  rw [StreetNetwork.get_max_speed_change_eq, h50]
  norm_num

namespace Simulation

variable {α : Type} [LinearOrderedField α]

theorem rc_iter_eval (net : StreetNetwork α) (order : List (ℕ × ℕ)) (n i : ℕ)
    (hi : i < n) (h20 : n < 20) :
    rc_iter net order n i ((3 : ℚ) * n / 20 + i) ((19 : ℚ) * n / 20) =
      ((net.change_max_speed (order.getD i (0, 0)) (-20)).1,
        (3 : ℚ) * n / 20 + i + 1, (19 : ℚ) * n / 20) := by
  have h1 : (i : ℚ) ≤ 3 * n / 20 + i := by
    have : (0 : ℚ) ≤ 3 * n / 20 := by positivity
    linarith
  have hn1 : 1 ≤ n := by omega
  have h2 : ¬ ((n - 1 - i : ℕ) : ℚ) ≥ 19 * n / 20 := by
    have hle : ((n - 1 - i : ℕ) : ℚ) ≤ (n : ℚ) - 1 := by
      have hj : (n - 1 - i : ℕ) ≤ n - 1 := Nat.sub_le _ _
      calc ((n - 1 - i : ℕ) : ℚ) ≤ ((n - 1 : ℕ) : ℚ) := by exact_mod_cast hj
        _ = (n : ℚ) - 1 := by
          rw [Nat.cast_sub hn1]
          norm_num
    have h20q : (n : ℚ) < 20 := by exact_mod_cast h20
    have hn0 : (1 : ℚ) ≤ (n : ℚ) := by exact_mod_cast hn1
    intro hcon
    have : (n : ℚ) - 1 < 19 * n / 20 := by linarith
    linarith
  unfold rc_iter
  rw [if_pos h1]
  simp only [StreetNetwork.change_max_speed, pyTruthy]
  rw [if_neg h2]
  simp

end Simulation

namespace Simulation

variable {α : Type} [LinearOrderedField α]

/-- Closed form of the `road_construction` loop on fewer than 20 streets:
starting from iteration `i` with `max_decrease_index = 0.15*n + i` (each
earlier iteration has widened the window once, `change_max_speed` never
reporting a change) and untouched `min_increase_index = 0.95*n`, the streets
at positions `k` with `i ≤ k` and (`k = i` or `k < 0.8*n`) each receive one
`-20` clamped speed decrease and every other street is untouched. -/
theorem rc_loop_formula (order : List (ℕ × ℕ)) (n : ℕ)
    (hn : n = order.length) (h20 : n < 20) (hnd : order.Nodup) :
    ∀ (fuel i : ℕ) (net : StreetNetwork α), n ≤ fuel + i →
      ∀ (k : ℕ) (hk : k < order.length),
        (rc_loop order n fuel net i ((3 : ℚ) * n / 20 + i) ((19 : ℚ) * n / 20)).get_max_speed
            (order.get ⟨k, hk⟩) =
          if i ≤ k ∧ (k = i ∨ (k : ℚ) < 4 * n / 5) then
            (net.get_max_speed (order.get ⟨k, hk⟩)).map
              (fun v => max 1 (min 140 (v + (-20))))
          else net.get_max_speed (order.get ⟨k, hk⟩) := by
  intro fuel
  induction fuel with
  | zero =>
    intro i net hni k hk
    have hkn : k < n := hn ▸ hk
    have hik : ¬ i ≤ k := by omega
    unfold rc_loop
    rw [if_neg (fun hc => hik hc.1)]
  | succ fuel ih =>
    intro i net hni k hk
    have hkn : k < n := hn ▸ hk
    by_cases hin : i < n
    · unfold rc_loop
      rw [if_pos hin, rc_iter_eval net order n i hin h20]
      dsimp only
      have hi' : i < order.length := hn ▸ hin
      have hgetD : order.getD i (0, 0) = order.get ⟨i, hi'⟩ := by
        rw [List.getD_eq_getElem order (0, 0) hi']
        rfl
      by_cases hbreak : ((3 : ℚ) * n / 20 + i + 1 ≥ 19 * n / 20)
      · rw [if_pos hbreak]
        by_cases hki : k = i
        · subst hki
          rw [if_pos ⟨le_refl k, Or.inl rfl⟩, hgetD]
          exact StreetNetwork.get_max_speed_change_eq net (order.get ⟨k, hk⟩) (-20)
        · have hcond : ¬ (i ≤ k ∧ (k = i ∨ (k : ℚ) < 4 * n / 5)) := by
            rintro ⟨hik, (h | h)⟩
            · exact hki h
            · have hik1 : i + 1 ≤ k := by omega
              have : ((i : ℚ) + 1) ≤ (k : ℚ) := by exact_mod_cast hik1
              linarith
          rw [if_neg hcond, hgetD]
          refine StreetNetwork.get_max_speed_change_ne net _ _ (-20) ?_
          rw [ne_eq, hnd.get_inj_iff]
          exact fun hc => hki (by simpa using congrArg Fin.val hc)
      · rw [if_neg hbreak]
        have hnb : ((i : ℚ) + 1) < 4 * n / 5 := by
          push_neg at hbreak
          linarith
        have harg : (3 : ℚ) * n / 20 + i + 1 = 3 * n / 20 + ((i + 1 : ℕ) : ℚ) := by
          push_cast
          ring
        rw [harg, ih (i + 1) _ (by omega) k hk]
        rcases lt_trichotomy k i with hki | hki | hki
        · have c1 : ¬ (i + 1 ≤ k ∧ (k = i + 1 ∨ (k : ℚ) < 4 * n / 5)) := by
            rintro ⟨hc, -⟩; omega
          have c2 : ¬ (i ≤ k ∧ (k = i ∨ (k : ℚ) < 4 * n / 5)) := by
            rintro ⟨hc, -⟩; omega
          rw [if_neg c1, if_neg c2, hgetD]
          refine StreetNetwork.get_max_speed_change_ne net _ _ (-20) ?_
          rw [ne_eq, hnd.get_inj_iff]
          exact fun hc => (by omega : k ≠ i) (by simpa using congrArg Fin.val hc)
        · subst hki
          have c1 : ¬ (k + 1 ≤ k ∧ (k = k + 1 ∨ (k : ℚ) < 4 * n / 5)) := by
            rintro ⟨hc, -⟩; omega
          rw [if_neg c1, if_pos ⟨le_refl k, Or.inl rfl⟩, hgetD]
          exact StreetNetwork.get_max_speed_change_eq net (order.get ⟨k, hk⟩) (-20)
        · have hne : order.get ⟨k, hk⟩ ≠ order.getD i (0, 0) := by
            rw [hgetD, ne_eq, hnd.get_inj_iff]
            exact fun hc => (by omega : k ≠ i) (by simpa using congrArg Fin.val hc)
          rw [StreetNetwork.get_max_speed_change_ne net _ _ (-20) hne]
          by_cases hk45 : (k : ℚ) < 4 * n / 5
          · rw [if_pos ⟨by omega, Or.inr hk45⟩, if_pos ⟨by omega, Or.inr hk45⟩]
          · have hki1 : k ≠ i + 1 := by
              intro hc
              subst hc
              exact hk45 (by exact_mod_cast hnb)
            have c1 : ¬ (i + 1 ≤ k ∧ (k = i + 1 ∨ (k : ℚ) < 4 * n / 5)) := by
              rintro ⟨-, (h | h)⟩
              · exact hki1 h
              · exact hk45 h
            have c2 : ¬ (i ≤ k ∧ (k = i ∨ (k : ℚ) < 4 * n / 5)) := by
              rintro ⟨-, (h | h)⟩
              · omega
              · exact hk45 h
            rw [if_neg c1, if_neg c2]
    · unfold rc_loop
      rw [if_neg hin]
      have hik : ¬ i ≤ k := by omega
      rw [if_neg (fun hc => hik hc.1)]

end Simulation

/-- A one-street network: nodes 1 and 2, street `(1, 2)` of length 10 and
max speed 50 (index 0). -/
def netOne : StreetNetwork ℚ :=
  ((StreetNetwork.empty.add_node 1).add_node 2).add_street (1, 2) 10 50

/-- A simulation over `netOne` with no trips and a zero load array. -/
def simOneStreet : SimulationState ℚ := ⟨netOne, [], 0, 0, some [0]⟩

/-- C4 (counterexample).  On a graph with a single street (fewer than 20
streets) one invocation of `road_construction` is **not** a zero-net-change
no-op: the street's max speed drops from 50 to 30 (the decrease branch fires
at iteration 0 and the loop then breaks). -/
theorem road_construction_small_graph_changes_speed :
    (Simulation.road_construction simOneStreet).street_network.get_max_speed (1, 2) =
      some 30 ∧
    simOneStreet.street_network.get_max_speed (1, 2) = some 50 := by
  have h50 : netOne.get_max_speed (1, 2) = some 50 := by decide
  have horder : Simulation.rc_order netOne [0] = [(1, 2)] := by decide
  refine ⟨?_, h50⟩
  have hstep :
      (Simulation.road_construction simOneStreet).street_network =
        Simulation.rc_loop [(1, 2)] 1 1 netOne 0 ((15 : ℚ) / 100 * 1) ((95 : ℚ) / 100 * 1) := by
    simp only [Simulation.road_construction, horder]
    rfl
  rw [hstep]
  have h15 : (15 : ℚ) / 100 * 1 = 3 * (1 : ℕ) / 20 + ((0 : ℕ) : ℚ) := by norm_num
  have h95 : (95 : ℚ) / 100 * 1 = 19 * (1 : ℕ) / 20 := by norm_num
  rw [h15, h95]
  have hform := Simulation.rc_loop_formula (α := ℚ) [(1, 2)] 1 rfl (by norm_num)
    (by decide) 1 0 netOne (by omega) 0 (by decide)
  have hget : ([((1 : ℕ), (2 : ℕ))].get ⟨0, by decide⟩) = (1, 2) := rfl
  rw [hget] at hform
  rw [hform]
  rw [if_pos ⟨le_refl 0, Or.inl rfl⟩, h50]
  norm_num

/-- C4 (amended).  On a graph with `n < 20` streets (load-sorted into the
duplicate-free list `order`), one invocation of the `road_construction` loop
performs a `-20` clamped decrease of `max_speed` on exactly the streets at
load-sorted positions `k < 0.8*n` (the top-5% increase window never fires,
because `0.95*n > n - 1`, and the decrease branch fires every iteration until
the widening decrease window crosses it), and leaves every other street's
`max_speed` unchanged — it is not a zero-net-change pass. -/
theorem road_construction_lt20_formula {α : Type} [LinearOrderedField α]
    (net : StreetNetwork α) (order : List (ℕ × ℕ)) (n : ℕ)
    (hn : n = order.length) (h20 : n < 20) (hnd : order.Nodup)
    (k : ℕ) (hk : k < order.length) :
    (Simulation.rc_loop order n n net 0 ((15 : ℚ) / 100 * n)
        ((95 : ℚ) / 100 * n)).get_max_speed (order.get ⟨k, hk⟩) =
      if (k : ℚ) < 4 * n / 5 then
        (net.get_max_speed (order.get ⟨k, hk⟩)).map
          (fun v => max 1 (min 140 (v + (-20))))
      else net.get_max_speed (order.get ⟨k, hk⟩) := by
  have h15 : (15 : ℚ) / 100 * n = 3 * n / 20 + ((0 : ℕ) : ℚ) := by push_cast; ring
  have h95 : (95 : ℚ) / 100 * n = 19 * n / 20 := by ring
  rw [h15, h95,
    Simulation.rc_loop_formula order n hn h20 hnd n 0 net (by omega) k hk]
  have hkn : k < n := hn ▸ hk
  have hn1 : 1 ≤ n := by omega
  refine if_congr ?_ rfl rfl
  constructor
  · rintro ⟨-, (h | h)⟩
    · subst h
      have : (0 : ℚ) < 4 * n / 5 := by
        have : (1 : ℚ) ≤ (n : ℚ) := by exact_mod_cast hn1
        positivity
      simpa using this
    · exact h
  · exact fun h => ⟨Nat.zero_le k, Or.inr h⟩

/-- Witness for C4 (amended): on the one-street graph the single street (at
position 0 of the load order) has its speed decreased. -/
theorem road_construction_lt20_formula_witness :
    (Simulation.rc_loop [(1, 2)] 1 1 netOne 0 ((15 : ℚ) / 100 * (1 : ℕ))
        ((95 : ℚ) / 100 * (1 : ℕ))).get_max_speed ([((1 : ℕ), (2 : ℕ))].get ⟨0, by decide⟩) =
      if ((0 : ℕ) : ℚ) < 4 * (1 : ℕ) / 5 then
        (netOne.get_max_speed ([((1 : ℕ), (2 : ℕ))].get ⟨0, by decide⟩)).map
          (fun v => max 1 (min 140 (v + (-20))))
      else netOne.get_max_speed ([((1 : ℕ), (2 : ℕ))].get ⟨0, by decide⟩) :=
  road_construction_lt20_formula netOne [(1, 2)] 1 rfl (by norm_num) (by decide) 0 (by decide)

/-! ## The traffic-load shape invariant (C8) -/

namespace Simulation

variable {α : Type} [LinearOrderedField α]

theorem walk_load_length (net : StreetNetwork α) (paths : List (ℕ × ℕ))
    (origin usage : ℕ) :
    ∀ (fuel goal : ℕ) (load load' : List ℕ),
      walk_load net paths origin usage fuel goal load = some load' →
      load'.length = load.length := by
  intro fuel
  induction fuel with
  | zero =>
    intro goal load load' h
    unfold walk_load at h
    by_cases hg : goal = origin
    · simp [hg] at h
      rw [h]
    · simp [hg] at h
  | succ fuel ih =>
    intro goal load load' h
    unfold walk_load at h
    by_cases hg : goal = origin
    · simp [hg] at h
      rw [h]
    · rw [if_neg hg] at h
      cases hp : alookup paths goal with
      | none => simp [hp] at h
      | some pred =>
        simp only [hp, Option.some_bind] at h
        cases hidx : StreetNetwork.get_street_index net (min goal pred, max goal pred) with
        | none => simp [hidx] at h
        | some idx =>
          simp only [hidx, Option.some_bind] at h
          cases hupd : updateLoad load idx usage with
          | none => simp [hupd] at h
          | some load₁ =>
            simp only [hupd, Option.some_bind] at h
            rw [ih pred load₁ load' h, updateLoad_length hupd]

theorem assign_goal_length (net : StreetNetwork α) (paths : List (ℕ × ℕ))
    (origin goal usage : ℕ) (load load' : List ℕ)
    (h : assign_goal net paths origin goal usage load = some load') :
    load'.length = load.length := by
  unfold assign_goal at h
  split at h
  · exact walk_load_length net paths origin usage _ goal load load' h
  · cases h; rfl

theorem assign_goals_length (net : StreetNetwork α) (paths : List (ℕ × ℕ))
    (origin usage : ℕ) :
    ∀ (goals : List ℕ) (load load' : List ℕ),
      assign_goals net paths origin usage load goals = some load' →
      load'.length = load.length := by
  intro goals
  induction goals with
  | nil => intro load load' h; cases h; rfl
  | cons goal rest ih =>
    intro load load' h
    unfold assign_goals at h
    cases hg : assign_goal net paths origin goal usage load with
    | none => rw [hg] at h; cases h
    | some load₁ =>
      rw [hg, Option.some_bind] at h
      rw [ih load₁ load' h, assign_goal_length net paths origin goal usage load load₁ hg]

theorem assignAll_length (net : StreetNetwork α) (usage : ℕ) :
    ∀ (trips : List (ℕ × List ℕ)) (load load' : List ℕ),
      assignAll net usage load trips = some load' →
      load'.length = load.length := by
  intro trips
  induction trips with
  | nil => intro load load' h; cases h; rfl
  | cons t rest ih =>
    intro load load' h
    unfold assignAll at h
    cases ho : assign_origin net t.1 t.2 usage load with
    | none => rw [ho] at h; cases h
    | some load₁ =>
      rw [ho, Option.some_bind] at h
      have h1 : load₁.length = load.length :=
        assign_goals_length net _ t.1 usage t.2 load load₁ ho
      rw [ih load₁ load' h, h1]

theorem rc_iter_street_index (net : StreetNetwork α) (order : List (ℕ × ℕ))
    (n i : ℕ) (a b : ℚ) :
    (rc_iter net order n i a b).1.street_index = net.street_index := by
  unfold rc_iter
  by_cases h1 : ((i : ℚ) ≤ a) <;>
    by_cases h2 : (((n - 1 - i : ℕ) : ℚ) ≥ b) <;>
      simp [h1, h2, StreetNetwork.change_max_speed, pyTruthy]

theorem rc_loop_street_index (order : List (ℕ × ℕ)) (n : ℕ) :
    ∀ (fuel : ℕ) (net : StreetNetwork α) (i : ℕ) (a b : ℚ),
      (rc_loop order n fuel net i a b).street_index = net.street_index := by
  intro fuel
  induction fuel with
  | zero => intro net i a b; rfl
  | succ fuel ih =>
    intro net i a b
    unfold rc_loop
    split
    · rcases hiter : rc_iter net order n i a b with ⟨net₂, maxDec₁, minInc₁⟩
      have hsi : net₂.street_index = net.street_index := by
        have := rc_iter_street_index net order n i a b
        rw [hiter] at this
        exact this
      dsimp only
      split
      · exact hsi
      · rw [ih net₂ (i + 1) maxDec₁ minInc₁, hsi]
    · rfl

end Simulation

/-- The traffic-load shape invariant claimed by the spec: the aggregate is a
dense array whose length is the number of streets. -/
def loadInv {α : Type} (sim : SimulationState α) : Prop :=
  ∃ l, sim.traffic_load = some l ∧ l.length = sim.street_network.street_index

/-- C8 (counterexample).  `road_construction` ends with
`self.traffic_load = None`: afterwards the traffic load is not a dense array
of length = number of streets (here 1) — the shape invariant is not preserved
by this public operation. -/
theorem road_construction_load_none :
    (Simulation.road_construction simOneStreet).traffic_load = none ∧
    (Simulation.road_construction simOneStreet).street_network.street_index = 1 ∧
    ¬ loadInv (Simulation.road_construction simOneStreet) := by
  refine ⟨rfl, ?_, ?_⟩
  · exact Simulation.rc_loop_street_index _ _ _ _ _ _ _
  · rintro ⟨l, hl, -⟩
    cases hl

/-- C8 (amended).  The traffic-load aggregate is a dense array of
non-negative counts of length = number of streets after `__init__` and after
every successful `step` (whose assignment phase starts from the all-zero
array of that length by construction); `road_construction`, however, sets the
aggregate to `None`, breaking the shape invariant until a new one is
installed. -/
theorem traffic_load_shape_invariant :
    (∀ (net : StreetNetwork ℝ) (trips : List (ℕ × List ℕ)) (jam : ℝ),
      loadInv (Simulation.mkSimulation net trips jam)) ∧
    (∀ sim sim' : SimulationState ℝ, Simulation.step sim = some sim' → loadInv sim') ∧
    (∀ sim : SimulationState ℝ, (Simulation.road_construction sim).traffic_load = none) := by
  refine ⟨?_, ?_, ?_⟩
  · intro net trips jam
    exact ⟨List.replicate net.street_index 0, rfl, List.length_replicate _ _⟩
  · intro sim sim' h
    unfold Simulation.step at h
    cases htl : sim.traffic_load with
    | none => rw [htl] at h; cases h
    | some load =>
      rw [htl, Option.some_bind] at h
      simp only [Option.map_eq_some'] at h
      obtain ⟨load', hassign, hsim'⟩ := h
      subst hsim'
      refine ⟨load', rfl, ?_⟩
      have := Simulation.assignAll_length _ settings_trip_volume sim.trips _ load' hassign
      simpa using this
  · intro sim
    rfl

/-! ## Positivity and monotonicity of the speed model (C5, C6) -/

theorem calculate_driving_speed_pos (L ms : ℝ) (t : ℕ) (lanes : ℝ)
    (hms : 0 < ms) :
    0 < calculate_driving_speed L ms t lanes := by
  unfold calculate_driving_speed
  refine lt_min hms ?_
  have hbd : (0 : ℝ) < settings_min_breaking_distance := by
    unfold settings_min_breaking_distance
    norm_num
  have hbrake : (0 : ℝ) <
      max (L * lanes / max (t : ℝ) lanes - settings_car_length)
        settings_min_breaking_distance :=
    lt_max_of_lt_right hbd
  have harg : (0 : ℝ) < settings_braking_deceleration *
      max (L * lanes / max (t : ℝ) lanes - settings_car_length)
        settings_min_breaking_distance * 2 := by
    have hdec : (0 : ℝ) < settings_braking_deceleration := by
      unfold settings_braking_deceleration
      norm_num
    positivity
  have := Real.sqrt_pos.mpr harg
  nlinarith [this]

/-- C6.  For fixed street length (≥ 0), max speed (> 0) and lane count (> 0),
`calculate_driving_speed` is monotone non-increasing in the traffic load. -/
theorem driving_speed_monotone_in_load (L ms lanes : ℝ) (load1 load2 : ℕ)
    (hL : 0 ≤ L) (_hms : 0 < ms) (hlanes : 0 < lanes) (hload : load1 ≤ load2) :
    calculate_driving_speed L ms load2 lanes ≤ calculate_driving_speed L ms load1 lanes := by
  unfold calculate_driving_speed
  have hd1 : (0 : ℝ) < max (load1 : ℝ) lanes := lt_max_of_lt_right hlanes
  have hd2 : (0 : ℝ) < max (load2 : ℝ) lanes := lt_max_of_lt_right hlanes
  have hdle : max (load1 : ℝ) lanes ≤ max (load2 : ℝ) lanes := by
    refine max_le_max ?_ le_rfl
    exact_mod_cast hload
  have hspace : L * lanes / max (load2 : ℝ) lanes ≤ L * lanes / max (load1 : ℝ) lanes := by
    have hnum : (0 : ℝ) ≤ L * lanes := mul_nonneg hL hlanes.le
    gcongr
  have hbrake :
      max (L * lanes / max (load2 : ℝ) lanes - settings_car_length)
          settings_min_breaking_distance ≤
        max (L * lanes / max (load1 : ℝ) lanes - settings_car_length)
          settings_min_breaking_distance :=
    max_le_max (sub_le_sub_right hspace _) le_rfl
  have hbd2 : (0 : ℝ) ≤
      max (L * lanes / max (load2 : ℝ) lanes - settings_car_length)
        settings_min_breaking_distance := by
    have : (0 : ℝ) < settings_min_breaking_distance := by
      unfold settings_min_breaking_distance
      norm_num
    exact (lt_max_of_lt_right this).le
  have hdec : (0 : ℝ) ≤ settings_braking_deceleration := by
    unfold settings_braking_deceleration
    norm_num
  have harg : settings_braking_deceleration *
      max (L * lanes / max (load2 : ℝ) lanes - settings_car_length)
        settings_min_breaking_distance * 2 ≤
      settings_braking_deceleration *
      max (L * lanes / max (load1 : ℝ) lanes - settings_car_length)
        settings_min_breaking_distance * 2 := by
    gcongr
  have hsqrt := Real.sqrt_le_sqrt harg
  refine min_le_min le_rfl ?_
  have h36 : (0 : ℝ) ≤ 3.6 := by norm_num
  exact mul_le_mul_of_nonneg_right hsqrt h36

/-- Witness for C6 at length 10, max speed 50, one lane, loads 2 ≤ 5. -/
theorem driving_speed_monotone_in_load_witness :
    calculate_driving_speed 10 50 5 1 ≤ calculate_driving_speed 10 50 2 1 :=
  driving_speed_monotone_in_load 10 50 1 2 5 (by norm_num) (by norm_num)
    (by norm_num) (by norm_num)

namespace Simulation

theorem street_driving_time_pos (jam L ms : ℝ) (t : ℕ) (lanes : ℝ)
    (hjam0 : 0 ≤ jam) (hjam1 : jam ≤ 1) (hL : 0 < L) (hms : 0 < ms) :
    0 < street_driving_time jam L ms t lanes := by
  unfold street_driving_time
  have ha : 0 < calculate_driving_speed L ms t lanes :=
    calculate_driving_speed_pos L ms t lanes hms
  have hb : 0 < calculate_driving_speed L ms 0 lanes :=
    calculate_driving_speed_pos L ms 0 lanes hms
  set a := calculate_driving_speed L ms t lanes
  set b := calculate_driving_speed L ms 0 lanes
  have hperceived : 0 < a + (b - a) * jam := by
    rcases le_total a b with hab | hab
    · nlinarith
    · nlinarith
  exact div_pos hL hperceived

end Simulation

/-- C5.  If every street's length, max speed and lane count are strictly
positive and the jam tolerance lies in `[0, 1]`, then after the re-weighting
phase of a simulation step every street's `driving_time` (the edge weight used
by shortest-path search) is strictly positive. -/
theorem reweight_all_weights_positive (net : StreetNetwork ℝ) (jam : ℝ)
    (load : List ℕ) (hjam0 : 0 ≤ jam) (hjam1 : jam ≤ 1)
    (hpos : ∀ e ∈ net.streets,
      0 < e.2.length ∧ 0 < e.2.max_speed ∧ 0 < e.2.number_of_lanes) :
    ∀ e ∈ (Simulation.reweight net jam load).streets, 0 < e.2.driving_time := by
  intro e' he'
  unfold Simulation.reweight at he'
  simp only [List.mem_map] at he'
  obtain ⟨e, he, rfl⟩ := he'
  obtain ⟨hL, hms, -⟩ := hpos e he
  exact Simulation.street_driving_time_pos jam e.2.length e.2.max_speed
    (load.getD e.2.index 0) e.2.number_of_lanes hjam0 hjam1 hL hms

/-- A one-street network over the reals (street `(1, 2)`, length 10, max
speed 50, index 0). -/
noncomputable def netOneReal : StreetNetwork ℝ :=
  ((StreetNetwork.empty.add_node 1).add_node 2).add_street (1, 2) 10 50

/-- Witness for C5 on `netOneReal` with jam tolerance `0` and load `[0]`:
the single re-weighted street's driving time is positive. -/
theorem reweight_all_weights_positive_witness :
    (0 : ℝ) < Simulation.street_driving_time 0 10 50 0 1 :=
  reweight_all_weights_positive netOneReal 0 [0] le_rfl (by norm_num)
    (by
      intro e he
      have hstreets : netOneReal.streets = [((1, 2), ⟨0, 10, 50, 1, 10 / 50⟩)] := rfl
      rw [hstreets] at he
      simp only [List.mem_singleton] at he
      subst he
      refine ⟨by norm_num, by norm_num, by norm_num⟩)
    ((1, 2), ⟨0, 10, 50, 1, Simulation.street_driving_time 0 10 50 0 1⟩)
    (List.mem_singleton.mpr rfl)

/-- A simulation over `netOneReal` with no trips. -/
noncomputable def simReal : SimulationState ℝ := Simulation.mkSimulation netOneReal [] 0

/-- The state produced by one `step` of `simReal`. -/
noncomputable def simRealNext : SimulationState ℝ :=
  { street_network := Simulation.reweight netOneReal 0 [0],
    trips := [], jam_tolerance := 0, step_counter := 1, traffic_load := some [0] }

/-- Witness for C8 (amended): `step` on the concrete one-street simulation
yields a state satisfying the shape invariant. -/
theorem traffic_load_shape_invariant_witness : loadInv simRealNext :=
  traffic_load_shape_invariant.2.1 simReal simRealNext rfl

/-! ## Correctness of the shortest-path engine (C2) -/

theorem alookup_mem {κ β : Type} [DecidableEq κ] :
    ∀ (l : List (κ × β)) (k : κ) (v : β), alookup l k = some v → (k, v) ∈ l := by
  intro l
  induction l with
  | nil => intro k v h; cases h
  | cons e rest ih =>
    intro k v h
    simp only [alookup] at h
    by_cases he : e.1 = k
    · rw [if_pos he] at h
      cases h
      rw [← he]
      exact List.mem_cons_self _ _
    · rw [if_neg he] at h
      exact List.mem_cons_of_mem e (ih k v h)

theorem mem_alookup {κ β : Type} [DecidableEq κ] :
    ∀ (l : List (κ × β)) (k : κ) (v : β), (l.map (·.1)).Nodup →
      (k, v) ∈ l → alookup l k = some v := by
  intro l
  induction l with
  | nil => intro k v _ h; cases h
  | cons e rest ih =>
    intro k v hnd h
    simp only [List.map_cons, List.nodup_cons] at hnd
    rcases List.mem_cons.mp h with h | h
    · subst h
      simp [alookup]
    · simp only [alookup]
      have hne : e.1 ≠ k := by
        intro hc
        exact hnd.1 (hc ▸ (List.mem_map.mpr ⟨(k, v), h, rfl⟩))
      rw [if_neg hne]
      exact ih k v hnd.2 h

theorem alookup_none_iff {κ β : Type} [DecidableEq κ] :
    ∀ (l : List (κ × β)) (k : κ), alookup l k = none ↔ k ∉ l.map (·.1) := by
  intro l
  induction l with
  | nil => intro k; simp [alookup]
  | cons e rest ih =>
    intro k
    simp only [alookup]
    by_cases he : e.1 = k
    · simp [he]
    · rw [if_neg he]
      simp only [List.map_cons, List.mem_cons, ih]
      constructor
      · rintro h (hc | hc)
        · exact he hc.symm
        · exact h hc
      · intro h
        exact fun hc => h (Or.inr hc)

theorem alookup_isSome_iff {κ β : Type} [DecidableEq κ]
    (l : List (κ × β)) (k : κ) : (alookup l k).isSome ↔ k ∈ l.map (·.1) := by
  cases h : alookup l k with
  | none =>
    simp only [Option.isSome_none, Bool.false_eq_true, false_iff]
    exact (alookup_none_iff l k).mp h
  | some v =>
    simp only [Option.isSome_some, true_iff]
    exact List.mem_map.mpr ⟨(k, v), alookup_mem l k v h, rfl⟩

theorem mem_keys_exists {κ β : Type} [DecidableEq κ]
    (l : List (κ × β)) (k : κ) (h : k ∈ l.map (·.1)) : ∃ v, (k, v) ∈ l := by
  obtain ⟨e, he, hk⟩ := List.mem_map.mp h
  exact ⟨e.2, by rw [← hk]; exact he⟩

theorem alookup_append_left {κ β : Type} [DecidableEq κ] :
    ∀ (l₁ l₂ : List (κ × β)) (k : κ) (v : β),
      alookup l₁ k = some v → alookup (l₁ ++ l₂) k = some v := by
  intro l₁
  induction l₁ with
  | nil => intro l₂ k v h; cases h
  | cons e rest ih =>
    intro l₂ k v h
    simp only [alookup] at h
    simp only [List.cons_append, alookup]
    by_cases he : e.1 = k
    · rwa [if_pos he] at h ⊢
    · rw [if_neg he] at h ⊢
      exact ih l₂ k v h

theorem alookup_append_right {κ β : Type} [DecidableEq κ] :
    ∀ (l₁ l₂ : List (κ × β)) (k : κ),
      alookup l₁ k = none → alookup (l₁ ++ l₂) k = alookup l₂ k := by
  intro l₁
  induction l₁ with
  | nil => intro l₂ k _; rfl
  | cons e rest ih =>
    intro l₂ k h
    simp only [alookup] at h
    simp only [List.cons_append, alookup]
    by_cases he : e.1 = k
    · rw [if_pos he] at h; cases h
    · rw [if_neg he] at h ⊢
      exact ih l₂ k h

namespace SPE

variable {α : Type} [LinearOrderedField α]

theorem findMin_mem : ∀ (l : List (DEntry α)) (m : DEntry α),
    findMin l = some m → m ∈ l := by
  intro l
  induction l with
  | nil => intro m h; cases h
  | cons e rest ih =>
    intro m h
    simp only [findMin] at h
    cases hr : findMin rest with
    | none =>
      simp only [hr] at h
      cases h
      exact List.mem_cons_self _ _
    | some m' =>
      simp only [hr] at h
      by_cases hc : m'.2.1 < e.2.1
      · rw [if_pos hc] at h
        cases h
        exact List.mem_cons_of_mem e (ih m hr)
      · rw [if_neg hc] at h
        cases h
        exact List.mem_cons_self _ _

theorem findMin_none : ∀ l : List (DEntry α), findMin l = none ↔ l = [] := by
  intro l
  cases l with
  | nil => simp [findMin]
  | cons e rest =>
    simp only [findMin]
    constructor
    · intro h
      cases hr : findMin rest <;> simp only [hr] at h
      · cases h
      · split at h <;> cases h
    · intro h
      cases h

theorem findMin_le : ∀ (l : List (DEntry α)) (m : DEntry α),
    findMin l = some m → ∀ e ∈ l, m.2.1 ≤ e.2.1 := by
  intro l
  induction l with
  | nil => intro m h; cases h
  | cons e rest ih =>
    intro m h x hx
    simp only [findMin] at h
    cases hr : findMin rest with
    | none =>
      simp only [hr] at h
      cases h
      rcases List.mem_cons.mp hx with hx | hx
      · rw [hx]
      · rw [(findMin_none rest).mp hr] at hx
        cases hx
    | some m' =>
      simp only [hr] at h
      rcases List.mem_cons.mp hx with hx | hx
      · subst hx
        split at h
        next hc => cases h; exact hc.le
        next => cases h; exact le_rfl
      · split at h
        next => cases h; exact ih m hr x hx
        next hc => cases h; exact (not_lt.mp hc).trans (ih m' hr x hx)

theorem mem_eraseKey (k : ℕ) (l : List (DEntry α)) (e : DEntry α) :
    e ∈ eraseKey k l ↔ e ∈ l ∧ e.1 ≠ k := by
  unfold eraseKey
  simp [List.mem_filter]

end SPE

namespace SPE

variable {α : Type} [LinearOrderedField α]

theorem mem_neighbors_iff (net : StreetNetwork α) (u w : ℕ) (wt : α) :
    (w, wt) ∈ neighbors net u ↔
      ∃ d : StreetData α, ((u, w), d) ∈ net.streets ∧ d.driving_time = wt := by
  unfold neighbors
  rw [List.mem_filterMap]
  constructor
  · rintro ⟨e, he, hsome⟩
    by_cases hu : e.1.1 = u
    · rw [if_pos hu] at hsome
      injection hsome with h1
      have hw : e.1.2 = w := congrArg Prod.fst h1
      have hwt : e.2.driving_time = wt := congrArg Prod.snd h1
      refine ⟨e.2, ?_, hwt⟩
      have he1 : e.1 = (u, w) := by rw [← hu, ← hw]
      have he2 : ((u, w), e.2) = e := by rw [← he1]
      rwa [he2]
    · rw [if_neg hu] at hsome
      cases hsome
  · rintro ⟨d, hd, hwt⟩
    exact ⟨((u, w), d), hd, by simp [hwt]⟩

theorem edgeWeight_neighbors (net : StreetNetwork α) (u w : ℕ) (wt : α)
    (h : edgeWeight net u w = some wt) : (w, wt) ∈ neighbors net u := by
  unfold edgeWeight at h
  cases hl : alookup net.streets (u, w) with
  | none => rw [hl] at h; cases h
  | some d =>
    rw [hl] at h
    cases h
    exact (mem_neighbors_iff net u w _).mpr ⟨d, alookup_mem _ _ _ hl, rfl⟩

theorem neighbors_edgeWeight (net : StreetNetwork α)
    (hnd : (net.streets.map (·.1)).Nodup) (u w : ℕ) (wt : α)
    (h : (w, wt) ∈ neighbors net u) : edgeWeight net u w = some wt := by
  obtain ⟨d, hd, hwt⟩ := (mem_neighbors_iff net u w wt).mp h
  unfold edgeWeight
  rw [mem_alookup net.streets (u, w) d hnd hd]
  simp [hwt]

theorem edgeWeight_nonneg (net : StreetNetwork α)
    (Hw : ∀ e ∈ net.streets, 0 ≤ e.2.driving_time) (u w : ℕ) (wt : α)
    (h : edgeWeight net u w = some wt) : 0 ≤ wt := by
  unfold edgeWeight at h
  cases hl : alookup net.streets (u, w) with
  | none => rw [hl] at h; cases h
  | some d =>
    rw [hl] at h
    cases h
    exact Hw _ (alookup_mem _ _ _ hl)

theorem costReaches_nonneg (net : StreetNetwork α)
    (Hw : ∀ e ∈ net.streets, 0 ≤ e.2.driving_time) (u v : ℕ) (c : α)
    (h : CostReaches net u v c) : 0 ≤ c := by
  induction h with
  | refl => exact le_rfl
  | tail _ hw ih => exact add_nonneg ih (edgeWeight_nonneg net Hw _ _ _ hw)

/-- The predecessor map read off a settled-entry list. -/
def prevOf (res : List (DEntry α)) : List (ℕ × ℕ) :=
  res.filterMap fun e => e.2.2.map (fun u => (e.1, u))

theorem prevOf_append (res₁ res₂ : List (DEntry α)) :
    prevOf (res₁ ++ res₂) = prevOf res₁ ++ prevOf res₂ := by
  unfold prevOf
  rw [List.filterMap_append]

theorem prevOf_keys_subset (res : List (DEntry α)) (k : ℕ)
    (h : k ∈ (prevOf res).map (·.1)) : k ∈ res.map (·.1) := by
  obtain ⟨e, he, hk⟩ := List.mem_map.mp h
  unfold prevOf at he
  obtain ⟨x, hx, hsome⟩ := List.mem_filterMap.mp he
  cases hp : x.2.2 with
  | none => rw [hp] at hsome; cases hsome
  | some u =>
    rw [hp] at hsome
    cases hsome
    exact List.mem_map.mpr ⟨x, hx, hk⟩

theorem mem_prevOf (res : List (DEntry α)) (v u : ℕ) :
    (v, u) ∈ prevOf res ↔ ∃ d, (v, d, some u) ∈ res := by
  unfold prevOf
  rw [List.mem_filterMap]
  constructor
  · rintro ⟨e, he, hsome⟩
    cases hp : e.2.2 with
    | none => rw [hp] at hsome; cases hsome
    | some u' =>
      rw [hp] at hsome
      simp only [Option.map_some'] at hsome
      injection hsome with h1
      have hv : e.1 = v := congrArg Prod.fst h1
      have hu : u' = u := congrArg Prod.snd h1
      rw [hu] at hp
      have h2 : e.2 = (e.2.1, some u) := by rw [← hp]
      have h3 : (v, e.2.1, some u) = e := by rw [← hv, ← h2]
      exact ⟨e.2.1, h3 ▸ he⟩
  · rintro ⟨d, hd⟩
    exact ⟨(v, d, some u), hd, rfl⟩

theorem followCost_zero (net : StreetNetwork α) (prev : List (ℕ × ℕ))
    (origin v : ℕ) :
    followCost net prev origin 0 v = if v = origin then some 0 else none := rfl

theorem followCost_succ (net : StreetNetwork α) (prev : List (ℕ × ℕ))
    (origin fuel v : ℕ) :
    followCost net prev origin (fuel + 1) v =
      if v = origin then some 0
      else
        match alookup prev v with
        | none => none
        | some u =>
          match followCost net prev origin fuel u, edgeWeight net u v with
          | some c, some wt => some (c + wt)
          | _, _ => none := rfl

theorem followCost_mono_fuel (net : StreetNetwork α) (prev : List (ℕ × ℕ))
    (origin : ℕ) :
    ∀ (fuel fuel' : ℕ), fuel ≤ fuel' → ∀ (v : ℕ) (d : α),
      followCost net prev origin fuel v = some d →
      followCost net prev origin fuel' v = some d := by
  intro fuel
  induction fuel with
  | zero =>
    intro fuel' _ v d h
    rw [followCost_zero] at h
    by_cases hv : v = origin
    · rw [if_pos hv] at h
      cases h
      cases fuel' with
      | zero => rw [followCost_zero, if_pos hv]
      | succ fuel'' => rw [followCost_succ, if_pos hv]
    · rw [if_neg hv] at h
      cases h
  | succ fuel ih =>
    intro fuel' hle v d h
    cases fuel' with
    | zero => omega
    | succ fuel'' =>
      rw [followCost_succ] at h
      rw [followCost_succ]
      by_cases hv : v = origin
      · rwa [if_pos hv] at h ⊢
      · rw [if_neg hv] at h ⊢
        cases hp : alookup prev v with
        | none => simp only [hp] at h; cases h
        | some u =>
          simp only [hp] at h ⊢
          cases hf : followCost net prev origin fuel u with
          | none => simp only [hf] at h; cases h
          | some c =>
            simp only [hf] at h
            simp only [ih fuel'' (by omega) u c hf]
            exact h

theorem followCost_append (net : StreetNetwork α) (prev ext : List (ℕ × ℕ))
    (origin : ℕ) :
    ∀ (fuel : ℕ) (v : ℕ) (d : α),
      followCost net prev origin fuel v = some d →
      followCost net (prev ++ ext) origin fuel v = some d := by
  intro fuel
  induction fuel with
  | zero =>
    intro v d h
    rw [followCost_zero] at h ⊢
    by_cases hv : v = origin
    · rwa [if_pos hv] at h ⊢
    · rw [if_neg hv] at h
      cases h
  | succ fuel ih =>
    intro v d h
    rw [followCost_succ] at h ⊢
    by_cases hv : v = origin
    · rwa [if_pos hv] at h ⊢
    · rw [if_neg hv] at h ⊢
      cases hp : alookup prev v with
      | none => simp only [hp] at h; cases h
      | some u =>
        simp only [hp] at h
        rw [alookup_append_left prev ext v u hp]
        cases hf : followCost net prev origin fuel u with
        | none => simp only [hf] at h; cases h
        | some c =>
          simp only [hf] at h
          simp only [ih u c hf]
          exact h

end SPE

theorem aupdate_keys {κ β : Type} [DecidableEq κ] :
    ∀ (l : List (κ × β)) (k : κ) (f : β → β),
      (aupdate l k f).map (·.1) = l.map (·.1) := by
  intro l
  induction l with
  | nil => intro k f; rfl
  | cons e rest ih =>
    intro k f
    simp only [aupdate]
    by_cases he : e.1 = k
    · rw [if_pos he]
      simp
    · rw [if_neg he]
      simp [ih]

theorem mem_aupdate {κ β : Type} [DecidableEq κ] :
    ∀ (l : List (κ × β)) (k : κ) (f : β → β) (x : κ × β), x ∈ aupdate l k f →
      x ∈ l ∨ ∃ y, (k, y) ∈ l ∧ x = (k, f y) := by
  intro l
  induction l with
  | nil => intro k f x h; cases h
  | cons e rest ih =>
    intro k f x h
    simp only [aupdate] at h
    by_cases he : e.1 = k
    · rw [if_pos he] at h
      rcases List.mem_cons.mp h with h | h
      · right
        refine ⟨e.2, ?_, by rw [h, he]⟩
        rw [← he]
        exact List.mem_cons_self _ _
      · exact Or.inl (List.mem_cons_of_mem e h)
    · rw [if_neg he] at h
      rcases List.mem_cons.mp h with h | h
      · exact Or.inl (h ▸ List.mem_cons_self _ _)
      · rcases ih k f x h with h | ⟨y, hy, hx⟩
        · exact Or.inl (List.mem_cons_of_mem e h)
        · exact Or.inr ⟨y, List.mem_cons_of_mem e hy, hx⟩

theorem mem_aupdate_of_ne {κ β : Type} [DecidableEq κ] :
    ∀ (l : List (κ × β)) (k : κ) (f : β → β) (x : κ × β),
      x ∈ l → x.1 ≠ k → x ∈ aupdate l k f := by
  intro l
  induction l with
  | nil => intro k f x h; cases h
  | cons e rest ih =>
    intro k f x h hne
    simp only [aupdate]
    by_cases he : e.1 = k
    · rw [if_pos he]
      rcases List.mem_cons.mp h with h | h
      · exact absurd (h ▸ he) hne
      · exact List.mem_cons_of_mem _ h
    · rw [if_neg he]
      rcases List.mem_cons.mp h with h | h
      · exact h ▸ List.mem_cons_self _ _
      · exact List.mem_cons_of_mem e (ih k f x h hne)

theorem aupdate_mem_self {κ β : Type} [DecidableEq κ] :
    ∀ (l : List (κ × β)) (k : κ) (f : β → β) (y : β),
      alookup l k = some y → (k, f y) ∈ aupdate l k f := by
  intro l
  induction l with
  | nil => intro k f y h; cases h
  | cons e rest ih =>
    intro k f y h
    simp only [alookup] at h
    simp only [aupdate]
    by_cases he : e.1 = k
    · rw [if_pos he] at h
      cases h
      rw [if_pos he, he]
      exact List.mem_cons_self _ _
    · rw [if_neg he] at h
      rw [if_neg he]
      exact List.mem_cons_of_mem e (ih k f y h)

namespace SPE

variable {α : Type} [LinearOrderedField α]

theorem relaxOne_classify (settled : List ℕ) (v : ℕ) (dv : α)
    (front : List (DEntry α)) (e : ℕ × α) :
    ∀ x ∈ relaxOne settled v dv front e,
      x ∈ front ∨ (x = (e.1, dv + e.2, some v) ∧ e.1 ∉ settled) := by
  intro x hx
  unfold relaxOne at hx
  by_cases hs : e.1 ∈ settled
  · rw [if_pos hs] at hx
    exact Or.inl hx
  · rw [if_neg hs] at hx
    cases hl : alookup front e.1 with
    | some d' =>
      rw [hl] at hx
      dsimp only at hx
      by_cases himp : dv + e.2 < d'.1
      · rw [if_pos himp] at hx
        rcases mem_aupdate front e.1 _ x hx with h | ⟨y, -, hxy⟩
        · exact Or.inl h
        · exact Or.inr ⟨hxy, hs⟩
      · rw [if_neg himp] at hx
        exact Or.inl hx
    | none =>
      rw [hl] at hx
      dsimp only at hx
      rcases List.mem_append.mp hx with h | h
      · exact Or.inl h
      · simp only [List.mem_singleton] at h
        exact Or.inr ⟨h, hs⟩

theorem relaxOne_keys_nodup (settled : List ℕ) (v : ℕ) (dv : α)
    (front : List (DEntry α)) (e : ℕ × α)
    (hnd : (front.map (·.1)).Nodup) :
    ((relaxOne settled v dv front e).map (·.1)).Nodup := by
  unfold relaxOne
  by_cases hs : e.1 ∈ settled
  · rwa [if_pos hs]
  · rw [if_neg hs]
    cases hl : alookup front e.1 with
    | some d' =>
      dsimp only
      by_cases himp : dv + e.2 < d'.1
      · rw [if_pos himp, aupdate_keys]
        exact hnd
      · rwa [if_neg himp]
    | none =>
      dsimp only
      have hnotmem : e.1 ∉ front.map (·.1) := (alookup_none_iff front e.1).mp hl
      simp only [List.map_append, List.map_cons, List.map_nil]
      rw [List.nodup_append]
      refine ⟨hnd, List.nodup_singleton _, ?_⟩
      intro a ha hb
      simp only [List.mem_singleton] at hb
      exact hnotmem (hb ▸ ha)

theorem relaxOne_improve (settled : List ℕ) (v : ℕ) (dv : α)
    (front : List (DEntry α)) (e : ℕ × α)
    (hnd : (front.map (·.1)).Nodup) :
    ∀ x ∈ front, ∃ x' ∈ relaxOne settled v dv front e,
      x'.1 = x.1 ∧ x'.2.1 ≤ x.2.1 := by
  intro x hx
  unfold relaxOne
  by_cases hs : e.1 ∈ settled
  · rw [if_pos hs]
    exact ⟨x, hx, rfl, le_rfl⟩
  · rw [if_neg hs]
    cases hl : alookup front e.1 with
    | some d' =>
      dsimp only
      by_cases himp : dv + e.2 < d'.1
      · rw [if_pos himp]
        by_cases hxk : x.1 = e.1
        · have hx2 : alookup front e.1 = some x.2 := by
            rw [← hxk]
            exact mem_alookup front x.1 x.2 hnd (by
              have : (x.1, x.2) = x := rfl
              rwa [this])
          rw [hl] at hx2
          injection hx2 with hd'
          refine ⟨(e.1, dv + e.2, some v), aupdate_mem_self front e.1 _ d' hl, ?_, ?_⟩
          · rw [hxk]
          · rw [hd'] at himp
            exact himp.le
        · exact ⟨x, mem_aupdate_of_ne front e.1 _ x hx hxk, rfl, le_rfl⟩
      · rw [if_neg himp]
        exact ⟨x, hx, rfl, le_rfl⟩
    | none =>
      dsimp only
      exact ⟨x, List.mem_append_left _ hx, rfl, le_rfl⟩

theorem relaxOne_cover (settled : List ℕ) (v : ℕ) (dv : α)
    (front : List (DEntry α)) (e : ℕ × α) (hs : e.1 ∉ settled) :
    ∃ x ∈ relaxOne settled v dv front e, x.1 = e.1 ∧ x.2.1 ≤ dv + e.2 := by
  unfold relaxOne
  rw [if_neg hs]
  cases hl : alookup front e.1 with
  | some d' =>
    dsimp only
    by_cases himp : dv + e.2 < d'.1
    · rw [if_pos himp]
      exact ⟨(e.1, dv + e.2, some v), aupdate_mem_self front e.1 _ d' hl, rfl, le_rfl⟩
    · rw [if_neg himp]
      exact ⟨(e.1, d'), alookup_mem front e.1 d' hl, rfl, not_lt.mp himp⟩
  | none =>
    dsimp only
    exact ⟨(e.1, dv + e.2, some v), List.mem_append_right _ (List.mem_singleton.mpr rfl),
      rfl, le_rfl⟩

theorem relaxFold_nodup (settled : List ℕ) (v : ℕ) (dv : α) :
    ∀ (ns : List (ℕ × α)) (front : List (DEntry α)),
      (front.map (·.1)).Nodup →
      ((ns.foldl (relaxOne settled v dv) front).map (·.1)).Nodup := by
  intro ns
  induction ns with
  | nil => intro front h; exact h
  | cons e rest ih =>
    intro front h
    exact ih _ (relaxOne_keys_nodup settled v dv front e h)

theorem relaxFold_classify (settled : List ℕ) (v : ℕ) (dv : α) :
    ∀ (ns : List (ℕ × α)) (front : List (DEntry α)),
      ∀ x ∈ ns.foldl (relaxOne settled v dv) front,
        x ∈ front ∨ ∃ wt, (x.1, wt) ∈ ns ∧ x = (x.1, dv + wt, some v) ∧ x.1 ∉ settled := by
  intro ns
  induction ns with
  | nil => intro front x hx; exact Or.inl hx
  | cons e rest ih =>
    intro front x hx
    rcases ih (relaxOne settled v dv front e) x hx with h | ⟨wt, hwt, hx', hns⟩
    · rcases relaxOne_classify settled v dv front e x h with h | ⟨hx', hns⟩
      · exact Or.inl h
      · refine Or.inr ⟨e.2, ?_, ?_, ?_⟩
        · rw [hx']
          exact List.mem_cons_self _ _
        · rw [hx']
        · rw [hx']
          exact hns
    · exact Or.inr ⟨wt, List.mem_cons_of_mem e hwt, hx', hns⟩

theorem relaxFold_improve (settled : List ℕ) (v : ℕ) (dv : α) :
    ∀ (ns : List (ℕ × α)) (front : List (DEntry α)),
      (front.map (·.1)).Nodup →
      ∀ x ∈ front, ∃ x' ∈ ns.foldl (relaxOne settled v dv) front,
        x'.1 = x.1 ∧ x'.2.1 ≤ x.2.1 := by
  intro ns
  induction ns with
  | nil => intro front _ x hx; exact ⟨x, hx, rfl, le_rfl⟩
  | cons e rest ih =>
    intro front hnd x hx
    obtain ⟨x₁, hx₁, hk₁, hd₁⟩ := relaxOne_improve settled v dv front e hnd x hx
    obtain ⟨x', hx', hk', hd'⟩ :=
      ih (relaxOne settled v dv front e) (relaxOne_keys_nodup settled v dv front e hnd) x₁ hx₁
    exact ⟨x', hx', hk'.trans hk₁, hd'.trans hd₁⟩

theorem relaxFold_cover (settled : List ℕ) (v : ℕ) (dv : α) :
    ∀ (ns : List (ℕ × α)) (front : List (DEntry α)),
      (front.map (·.1)).Nodup →
      ∀ e ∈ ns, e.1 ∉ settled →
        ∃ x ∈ ns.foldl (relaxOne settled v dv) front, x.1 = e.1 ∧ x.2.1 ≤ dv + e.2 := by
  intro ns
  induction ns with
  | nil => intro front _ e he; cases he
  | cons e₀ rest ih =>
    intro front hnd e he hs
    rcases List.mem_cons.mp he with he | he
    · subst he
      obtain ⟨x₁, hx₁, hk₁, hd₁⟩ := relaxOne_cover settled v dv front e hs
      obtain ⟨x', hx', hk', hd'⟩ := relaxFold_improve settled v dv rest _
        (relaxOne_keys_nodup settled v dv front e hnd) x₁ hx₁
      exact ⟨x', hx', hk'.trans hk₁, hd'.trans hd₁⟩
    · exact ih (relaxOne settled v dv front e₀)
        (relaxOne_keys_nodup settled v dv front e₀ hnd) e he hs

theorem relaxAll_nodup (net : StreetNetwork α) (settled : List ℕ) (v : ℕ) (dv : α)
    (front : List (DEntry α)) (hnd : (front.map (·.1)).Nodup) :
    ((relaxAll net settled v dv front).map (·.1)).Nodup :=
  relaxFold_nodup settled v dv (neighbors net v) front hnd

theorem relaxAll_classify (net : StreetNetwork α) (settled : List ℕ) (v : ℕ)
    (dv : α) (front : List (DEntry α)) :
    ∀ x ∈ relaxAll net settled v dv front,
      x ∈ front ∨ ∃ wt, (x.1, wt) ∈ neighbors net v ∧
        x = (x.1, dv + wt, some v) ∧ x.1 ∉ settled :=
  relaxFold_classify settled v dv (neighbors net v) front

theorem relaxAll_improve (net : StreetNetwork α) (settled : List ℕ) (v : ℕ)
    (dv : α) (front : List (DEntry α)) (hnd : (front.map (·.1)).Nodup) :
    ∀ x ∈ front, ∃ x' ∈ relaxAll net settled v dv front,
      x'.1 = x.1 ∧ x'.2.1 ≤ x.2.1 :=
  relaxFold_improve settled v dv (neighbors net v) front hnd

theorem relaxAll_cover (net : StreetNetwork α) (settled : List ℕ) (v : ℕ)
    (dv : α) (front : List (DEntry α)) (hnd : (front.map (·.1)).Nodup)
    (w : ℕ) (wt : α) (hmem : (w, wt) ∈ neighbors net v) (hs : w ∉ settled) :
    ∃ x ∈ relaxAll net settled v dv front, x.1 = w ∧ x.2.1 ≤ dv + wt :=
  relaxFold_cover settled v dv (neighbors net v) front hnd (w, wt) hmem hs

end SPE

namespace SPE

variable {α : Type} [LinearOrderedField α]

/-- The loop invariant of Dijkstra's algorithm: `res` is the list of settled
entries (in settling order, the origin first), `front` the frontier.  Settled
distances are exact shortest distances realized by the recorded predecessor
chains; the frontier covers every edge out of the settled region. -/
structure DInv (net : StreetNetwork α) (origin : ℕ)
    (res front : List (DEntry α)) : Prop where
  resNodup : (res.map (·.1)).Nodup
  frontNodup : (front.map (·.1)).Nodup
  disj : ∀ e ∈ front, e.1 ∉ res.map (·.1)
  resNodes : ∀ e ∈ res, e.1 ∈ net.nodes
  frontNodes : ∀ e ∈ front, e.1 ∈ net.nodes
  resHead : ∃ t, res = (origin, 0, none) :: t
  resOpt : ∀ e ∈ res, CostReaches net origin e.1 e.2.1 ∧
    ∀ c, CostReaches net origin e.1 c → e.2.1 ≤ c
  resPredShape : ∀ e ∈ res, e.2.2 = none → e.1 = origin
  resFollow : ∀ e ∈ res,
    followCost net (prevOf res) origin res.length e.1 = some e.2.1
  frontSound : ∀ e ∈ front, ∃ u du, (∃ pu, (u, du, pu) ∈ res) ∧
    ∃ wt, edgeWeight net u e.1 = some wt ∧ e.2.1 = du + wt ∧ e.2.2 = some u
  frontComplete : ∀ u du pu, (u, du, pu) ∈ res →
    ∀ w wt, edgeWeight net u w = some wt → w ∉ res.map (·.1) →
      ∃ x ∈ front, x.1 = w ∧ x.2.1 ≤ du + wt

theorem dinv_origin_mem_keys {net : StreetNetwork α} {origin : ℕ}
    {res front : List (DEntry α)} (inv : DInv net origin res front) :
    origin ∈ res.map (·.1) := by
  obtain ⟨t, ht⟩ := inv.resHead
  rw [ht]
  simp

/-- The cut argument: any path from the origin to an unsettled node passes
through the frontier, so some frontier entry costs no more than the path. -/
theorem dinv_cut {net : StreetNetwork α} {origin : ℕ}
    {res front : List (DEntry α)} (inv : DInv net origin res front)
    (Hw : ∀ e ∈ net.streets, 0 ≤ e.2.driving_time) :
    ∀ (v : ℕ) (c : α), CostReaches net origin v c → v ∉ res.map (·.1) →
      ∃ x ∈ front, x.2.1 ≤ c := by
  intro v c h
  induction h with
  | refl => intro hv; exact absurd (dinv_origin_mem_keys inv) hv
  | tail hreach hedge ih =>
    rename_i u w c' wt
    intro hw
    by_cases hu : u ∈ res.map (·.1)
    · obtain ⟨⟨du, pu⟩, hmem⟩ := mem_keys_exists res u hu
      have hdu : du ≤ c' := (inv.resOpt _ hmem).2 c' hreach
      obtain ⟨x, hx, hxk, hxd⟩ := inv.frontComplete u du pu hmem w wt hedge hw
      exact ⟨x, hx, hxd.trans (add_le_add_right hdu wt)⟩
    · obtain ⟨x, hx, hxd⟩ := ih hu
      have hwt : 0 ≤ wt := edgeWeight_nonneg net Hw u w wt hedge
      exact ⟨x, hx, hxd.trans (le_add_of_nonneg_right hwt)⟩

/-- The entry extracted by `findMin` carries the exact shortest distance to
its node. -/
theorem dinv_extract {net : StreetNetwork α} {origin : ℕ}
    {res front : List (DEntry α)} (inv : DInv net origin res front)
    (Hw : ∀ e ∈ net.streets, 0 ≤ e.2.driving_time)
    (m : DEntry α) (hm : findMin front = some m) :
    CostReaches net origin m.1 m.2.1 ∧
      ∀ c, CostReaches net origin m.1 c → m.2.1 ≤ c := by
  have hmem := findMin_mem front m hm
  obtain ⟨u, du, ⟨pu, hures⟩, wt, hedge, hdist, hpred⟩ := inv.frontSound m hmem
  constructor
  · have hre : CostReaches net origin u du := (inv.resOpt _ hures).1
    rw [hdist]
    exact CostReaches.tail hre hedge
  · intro c hc
    have hnotin : m.1 ∉ res.map (·.1) := inv.disj m hmem
    obtain ⟨x, hx, hxd⟩ := dinv_cut inv Hw m.1 c hc hnotin
    exact (findMin_le front m hm x hx).trans hxd

theorem eraseKey_nodup (k : ℕ) (front : List (DEntry α))
    (hnd : (front.map (·.1)).Nodup) : ((eraseKey k front).map (·.1)).Nodup :=
  ((List.filter_sublist front).map (·.1)).nodup hnd

/-- One settling round preserves the invariant. -/
theorem dinv_step {net : StreetNetwork α} {origin : ℕ}
    {res front : List (DEntry α)} (inv : DInv net origin res front)
    (Hw : ∀ e ∈ net.streets, 0 ≤ e.2.driving_time)
    (HsKeys : (net.streets.map (·.1)).Nodup)
    (Hend : ∀ e ∈ net.streets, e.1.1 ∈ net.nodes ∧ e.1.2 ∈ net.nodes)
    (m : DEntry α) (hm : findMin front = some m) :
    DInv net origin (res ++ [m])
      (relaxAll net (res.map (·.1) ++ [m.1]) m.1 m.2.1 (eraseKey m.1 front)) := by
  have hmem : m ∈ front := findMin_mem front m hm
  have hmkey : m.1 ∉ res.map (·.1) := inv.disj m hmem
  have hopt := dinv_extract inv Hw m hm
  obtain ⟨u₀, du₀, ⟨pu₀, hu₀res⟩, wt₀, hedge₀, hdist₀, hpred₀⟩ := inv.frontSound m hmem
  have hfront₀nodup : ((eraseKey m.1 front).map (·.1)).Nodup :=
    eraseKey_nodup m.1 front inv.frontNodup
  have hkeys_append : (res ++ [m]).map (·.1) = res.map (·.1) ++ [m.1] := by simp
  have hmorigin : m.1 ≠ origin := by
    intro hc
    exact hmkey (hc ▸ dinv_origin_mem_keys inv)
  refine ⟨?_, ?_, ?_, ?_, ?_, ?_, ?_, ?_, ?_, ?_, ?_⟩
  · rw [hkeys_append]
    rw [List.nodup_append]
    exact ⟨inv.resNodup, List.nodup_singleton _, by
      intro a ha hb
      simp only [List.mem_singleton] at hb
      exact hmkey (hb ▸ ha)⟩
  · exact relaxAll_nodup net _ m.1 m.2.1 (eraseKey m.1 front) hfront₀nodup
  · intro x hx
    rw [hkeys_append]
    rcases relaxAll_classify net _ m.1 m.2.1 (eraseKey m.1 front) x hx with
      h | ⟨wt, hwt, hx', hns⟩
    · obtain ⟨hxf, hxne⟩ := (mem_eraseKey m.1 front x).mp h
      intro hc
      rcases List.mem_append.mp hc with hc | hc
      · exact inv.disj x hxf hc
      · exact hxne (List.mem_singleton.mp hc)
    · exact hns
  · intro e he
    rcases List.mem_append.mp he with h | h
    · exact inv.resNodes e h
    · rw [List.mem_singleton.mp h]
      exact inv.frontNodes m hmem
  · intro x hx
    rcases relaxAll_classify net _ m.1 m.2.1 (eraseKey m.1 front) x hx with
      h | ⟨wt, hwt, hx', hns⟩
    · exact inv.frontNodes x ((mem_eraseKey m.1 front x).mp h).1
    · obtain ⟨d, hd, -⟩ := (mem_neighbors_iff net m.1 x.1 wt).mp hwt
      exact (Hend _ hd).2
  · obtain ⟨t, ht⟩ := inv.resHead
    exact ⟨t ++ [m], by rw [ht]; rfl⟩
  · intro e he
    rcases List.mem_append.mp he with h | h
    · exact inv.resOpt e h
    · rw [List.mem_singleton.mp h]
      exact hopt
  · intro e he hnone
    rcases List.mem_append.mp he with h | h
    · exact inv.resPredShape e h hnone
    · rw [List.mem_singleton.mp h] at hnone
      rw [hpred₀] at hnone
      cases hnone
  · intro e he
    have hlen : (res ++ [m]).length = res.length + 1 := by simp
    have hprev : prevOf (res ++ [m]) = prevOf res ++ prevOf [m] := prevOf_append res [m]
    rcases List.mem_append.mp he with h | h
    · rw [hlen, hprev]
      exact followCost_append net (prevOf res) (prevOf [m]) origin (res.length + 1) e.1
        e.2.1 (followCost_mono_fuel net (prevOf res) origin res.length (res.length + 1)
          (by omega) e.1 e.2.1 (inv.resFollow e h))
    · rw [List.mem_singleton.mp h, hlen, hprev]
      have hsingle : prevOf [m] = [(m.1, u₀)] := by
        unfold prevOf
        simp [hpred₀]
      have hnone : alookup (prevOf res) m.1 = none := by
        rw [alookup_none_iff]
        intro hc
        exact hmkey (prevOf_keys_subset res m.1 hc)
      have h1 : alookup (prevOf res ++ prevOf [m]) m.1 = some u₀ := by
        rw [alookup_append_right _ _ _ hnone, hsingle]
        simp [alookup]
      rw [followCost_succ, if_neg hmorigin]
      simp only [h1]
      have h2 : followCost net (prevOf res ++ prevOf [m]) origin res.length u₀ = some du₀ :=
        followCost_append net (prevOf res) (prevOf [m]) origin res.length u₀ du₀
          (inv.resFollow (u₀, du₀, pu₀) hu₀res)
      simp only [h2, hedge₀]
      rw [hdist₀]
  · intro x hx
    rcases relaxAll_classify net _ m.1 m.2.1 (eraseKey m.1 front) x hx with
      h | ⟨wt, hwt, hx', hns⟩
    · obtain ⟨u, du, ⟨pu, hur⟩, wt, hedge, hdist, hpred⟩ :=
        inv.frontSound x ((mem_eraseKey m.1 front x).mp h).1
      exact ⟨u, du, ⟨pu, List.mem_append_left _ hur⟩, wt, hedge, hdist, hpred⟩
    · refine ⟨m.1, m.2.1, ⟨m.2.2, ?_⟩, wt, ?_, ?_, ?_⟩
      · exact List.mem_append_right _ (List.mem_singleton.mpr rfl)
      · exact neighbors_edgeWeight net HsKeys m.1 x.1 wt hwt
      · rw [hx']
      · rw [hx']
  · intro u du pu hu w wt hedge hw
    rw [hkeys_append] at hw
    have hwres : w ∉ res.map (·.1) := fun hc => hw (List.mem_append_left _ hc)
    have hwm : w ≠ m.1 := fun hc =>
      hw (List.mem_append_right _ (List.mem_singleton.mpr hc))
    rcases List.mem_append.mp hu with h | h
    · obtain ⟨x, hx, hxk, hxd⟩ := inv.frontComplete u du pu h w wt hedge hwres
      have hx₀ : x ∈ eraseKey m.1 front :=
        (mem_eraseKey m.1 front x).mpr ⟨hx, by rw [hxk]; exact hwm⟩
      obtain ⟨x', hx', hk', hd'⟩ := relaxAll_improve net _ m.1 m.2.1
        (eraseKey m.1 front) hfront₀nodup x hx₀
      exact ⟨x', hx', by rw [hk', hxk], hd'.trans hxd⟩
    · have hm_eq : (u, du, pu) = m := List.mem_singleton.mp h
      have hu_eq : u = m.1 := congrArg (·.1) hm_eq
      have hdu_eq : du = m.2.1 := congrArg (·.2.1) hm_eq
      have hnb : (w, wt) ∈ neighbors net m.1 := by
        rw [← hu_eq]
        exact edgeWeight_neighbors net u w wt hedge
      have hws : w ∉ res.map (·.1) ++ [m.1] := by
        intro hc
        rcases List.mem_append.mp hc with hc | hc
        · exact hwres hc
        · exact hwm (List.mem_singleton.mp hc)
      obtain ⟨x, hx, hxk, hxd⟩ := relaxAll_cover net _ m.1 m.2.1
        (eraseKey m.1 front) hfront₀nodup w wt hnb hws
      refine ⟨x, hx, hxk, ?_⟩
      rw [hu_eq, hdu_eq] at *
      exact hxd

end SPE

theorem filter_length_lt {γ : Type} {p : γ → Bool} :
    ∀ {l : List γ} {x : γ}, x ∈ l → p x = false → (l.filter p).length < l.length := by
  intro l
  induction l with
  | nil => intro x hx _; cases hx
  | cons a t ih =>
    intro x hx hpx
    rcases List.mem_cons.mp hx with hx | hx
    · subst hx
      simp only [List.filter_cons, hpx, Bool.false_eq_true, if_false, List.length_cons]
      exact Nat.lt_succ_of_le (List.length_filter_le p t)
    · by_cases hpa : p a = true
      · simp only [List.filter_cons, hpa, if_true, List.length_cons]
        exact Nat.succ_lt_succ (ih hx hpx)
      · simp only [List.filter_cons, hpa, if_false, List.length_cons]
        exact (ih hx hpx).trans_le (Nat.le_succ _)

namespace SPE

variable {α : Type} [LinearOrderedField α]

theorem unsettled_decrease (nodes keys : List ℕ) (k : ℕ)
    (hk : k ∈ nodes) (hknot : k ∉ keys) :
    (nodes.filter (fun x => decide (x ∉ keys ++ [k]))).length + 1 ≤
      (nodes.filter (fun x => decide (x ∉ keys))).length := by
  have h1 : nodes.filter (fun x => decide (x ∉ keys ++ [k])) =
      (nodes.filter (fun x => decide (x ∉ keys))).filter (fun x => decide (x ≠ k)) := by
    rw [List.filter_filter]
    apply List.filter_congr
    intro x _
    by_cases h1 : x ∈ keys <;> by_cases h2 : x = k <;>
      simp [h1, h2, List.mem_append]
  rw [h1]
  have h2 : k ∈ nodes.filter (fun x => decide (x ∉ keys)) :=
    List.mem_filter.mpr ⟨hk, by simp [hknot]⟩
  have h3 : (fun x => decide (x ≠ k)) k = false := by simp
  exact filter_length_lt h2 h3

/-- Running the loop from an invariant state with enough fuel empties the
frontier and preserves the invariant. -/
theorem dinv_loop {net : StreetNetwork α} {origin : ℕ}
    (Hw : ∀ e ∈ net.streets, 0 ≤ e.2.driving_time)
    (HsKeys : (net.streets.map (·.1)).Nodup)
    (Hend : ∀ e ∈ net.streets, e.1.1 ∈ net.nodes ∧ e.1.2 ∈ net.nodes) :
    ∀ (fuel : ℕ) (res front : List (DEntry α)),
      DInv net origin res front →
      (net.nodes.dedup.filter (fun x => decide (x ∉ res.map (·.1)))).length ≤ fuel →
      DInv net origin (dijkstraLoop net fuel res front) [] := by
  intro fuel
  induction fuel with
  | zero =>
    intro res front inv hcount
    cases hm : findMin front with
    | some m =>
      exfalso
      have hmem := findMin_mem front m hm
      have hin : m.1 ∈ net.nodes.dedup.filter (fun x => decide (x ∉ res.map (·.1))) :=
        List.mem_filter.mpr ⟨List.mem_dedup.mpr (inv.frontNodes m hmem),
          by simp [inv.disj m hmem]⟩
      have : 0 < (net.nodes.dedup.filter
          (fun x => decide (x ∉ res.map (·.1)))).length :=
        List.length_pos.mpr (List.ne_nil_of_mem hin)
      omega
    | none =>
      have hfront : front = [] := (findMin_none front).mp hm
      subst hfront
      exact inv
  | succ fuel ih =>
    intro res front inv hcount
    cases hm : findMin front with
    | none =>
      have hfront : front = [] := (findMin_none front).mp hm
      subst hfront
      simpa only [dijkstraLoop, hm] using inv
    | some m =>
      have hmem := findMin_mem front m hm
      have inv' := dinv_step inv Hw HsKeys Hend m hm
      have hkeys : (res ++ [m]).map (·.1) = res.map (·.1) ++ [m.1] := by simp
      have hdec := unsettled_decrease net.nodes.dedup (res.map (·.1)) m.1
        (List.mem_dedup.mpr (inv.frontNodes m hmem)) (inv.disj m hmem)
      have hcount' :
          (net.nodes.dedup.filter
            (fun x => decide (x ∉ (res ++ [m]).map (·.1)))).length ≤ fuel := by
        rw [hkeys]
        omega
      simp only [dijkstraLoop, hm]
      exact ih (res ++ [m]) _ inv' hcount'

/-- The invariant holds after settling the origin and relaxing its
out-edges. -/
theorem dinv_init {net : StreetNetwork α} {origin : ℕ}
    (Horigin : origin ∈ net.nodes)
    (Hw : ∀ e ∈ net.streets, 0 ≤ e.2.driving_time)
    (HsKeys : (net.streets.map (·.1)).Nodup)
    (Hend : ∀ e ∈ net.streets, e.1.1 ∈ net.nodes ∧ e.1.2 ∈ net.nodes) :
    DInv net origin [(origin, (0 : α), (none : Option ℕ))]
      (relaxAll net [origin] origin 0 []) := by
  refine ⟨?_, ?_, ?_, ?_, ?_, ?_, ?_, ?_, ?_, ?_, ?_⟩
  · simp
  · exact relaxAll_nodup net [origin] origin 0 [] (by simp)
  · intro x hx
    rcases relaxAll_classify net [origin] origin 0 [] x hx with h | ⟨wt, hwt, hx', hns⟩
    · cases h
    · simpa using hns
  · intro e he
    rw [List.mem_singleton.mp he]
    exact Horigin
  · intro x hx
    rcases relaxAll_classify net [origin] origin 0 [] x hx with h | ⟨wt, hwt, hx', hns⟩
    · cases h
    · obtain ⟨d, hd, -⟩ := (mem_neighbors_iff net origin x.1 wt).mp hwt
      exact (Hend _ hd).2
  · exact ⟨[], rfl⟩
  · intro e he
    rw [List.mem_singleton.mp he]
    exact ⟨CostReaches.refl, fun c hc => costReaches_nonneg net Hw origin origin c hc⟩
  · intro e he _
    rw [List.mem_singleton.mp he]
  · intro e he
    rw [List.mem_singleton.mp he]
    simp [followCost_succ]
  · intro x hx
    rcases relaxAll_classify net [origin] origin 0 [] x hx with h | ⟨wt, hwt, hx', hns⟩
    · cases h
    · refine ⟨origin, 0, ⟨none, List.mem_singleton.mpr rfl⟩, wt,
        neighbors_edgeWeight net HsKeys origin x.1 wt hwt, ?_, ?_⟩
      · rw [hx']
      · rw [hx']
  · intro u du pu hu w wt hedge hw
    have hm_eq : (u, du, pu) = (origin, (0 : α), (none : Option ℕ)) :=
      List.mem_singleton.mp hu
    have hu_eq : u = origin := congrArg (·.1) hm_eq
    have hdu_eq : du = 0 := congrArg (·.2.1) hm_eq
    have hnb : (w, wt) ∈ neighbors net origin := by
      rw [← hu_eq]
      exact edgeWeight_neighbors net u w wt hedge
    have hws : w ∉ [origin] := by
      intro hc
      apply hw
      simpa using List.mem_singleton.mp hc
    obtain ⟨x, hx, hxk, hxd⟩ := relaxAll_cover net [origin] origin 0 [] (by simp) w wt hnb hws
    refine ⟨x, hx, hxk, ?_⟩
    rw [hdu_eq]
    simpa using hxd

end SPE

/-- C2.  Modelled from the spec (the engine itself is the external pygraph
routine): for every graph with strictly positive edge weights (well-formed:
street endpoints are nodes and directed street pairs are unique) and every
origin node, the engine's predecessor map contains every node reachable from
the origin (other than the origin itself), and following predecessors from
any mapped node back to the origin yields a path whose total weight is
realized by an actual path and is a lower bound on the weight of every path
from the origin to that node — it equals the minimum. -/
theorem shortest_path_engine_optimal {α : Type} [LinearOrderedField α]
    (net : StreetNetwork α) (origin : ℕ)
    (Horigin : origin ∈ net.nodes)
    (HsKeys : (net.streets.map (·.1)).Nodup)
    (Hend : ∀ e ∈ net.streets, e.1.1 ∈ net.nodes ∧ e.1.2 ∈ net.nodes)
    (Hw : ∀ e ∈ net.streets, 0 < e.2.driving_time) :
    (∀ (v : ℕ) (c : α), SPE.CostReaches net origin v c → v ≠ origin →
      v ∈ (SPE.dijkstraPrev net origin).map (·.1)) ∧
    (∀ v ∈ (SPE.dijkstraPrev net origin).map (·.1), ∃ d : α,
      SPE.followCost net (SPE.dijkstraPrev net origin) origin
        (SPE.dijkstraRes net origin).length v = some d ∧
      SPE.CostReaches net origin v d ∧
      ∀ c, SPE.CostReaches net origin v c → d ≤ c) := by
  have Hw' : ∀ e ∈ net.streets, 0 ≤ e.2.driving_time := fun e he => (Hw e he).le
  have hinit := SPE.dinv_init Horigin Hw' HsKeys Hend
  have hcount : (net.nodes.dedup.filter (fun x =>
      decide (x ∉ ([((origin : ℕ), (0 : α), (none : Option ℕ))].map (·.1))))).length ≤
        net.nodes.length :=
    le_trans (List.length_filter_le _ _) (List.dedup_sublist _).length_le
  have hfinal : SPE.DInv net origin (SPE.dijkstraRes net origin) [] := by
    unfold SPE.dijkstraRes
    exact SPE.dinv_loop Hw' HsKeys Hend net.nodes.length _ _ hinit hcount
  have hprev : SPE.dijkstraPrev net origin = SPE.prevOf (SPE.dijkstraRes net origin) := rfl
  constructor
  · intro v c hreach hne
    by_cases hv : v ∈ (SPE.dijkstraRes net origin).map (·.1)
    · obtain ⟨⟨d, p⟩, hmem⟩ := mem_keys_exists _ v hv
      cases hpv : p with
      | none =>
        rw [hpv] at hmem
        exact absurd (hfinal.resPredShape (v, d, none) hmem rfl) hne
      | some u =>
        rw [hpv] at hmem
        rw [hprev]
        exact List.mem_map.mpr ⟨(v, u), (SPE.mem_prevOf _ v u).mpr ⟨d, hmem⟩, rfl⟩
    · obtain ⟨x, hx, -⟩ := SPE.dinv_cut hfinal Hw' v c hreach hv
      cases hx
  · intro v hv
    rw [hprev] at hv
    obtain ⟨u, hvu⟩ := mem_keys_exists _ v hv
    obtain ⟨d, hmem⟩ := (SPE.mem_prevOf _ v u).mp hvu
    refine ⟨d, ?_, (hfinal.resOpt _ hmem).1, (hfinal.resOpt _ hmem).2⟩
    rw [hprev]
    exact hfinal.resFollow (v, d, some u) hmem

/-- Witness for C2 on the concrete chain network with origin 1. -/
theorem shortest_path_engine_optimal_witness :
    (∀ (v : ℕ) (c : ℚ), SPE.CostReaches netChain 1 v c → v ≠ 1 →
      v ∈ (SPE.dijkstraPrev netChain 1).map (·.1)) ∧
    (∀ v ∈ (SPE.dijkstraPrev netChain 1).map (·.1), ∃ d : ℚ,
      SPE.followCost netChain (SPE.dijkstraPrev netChain 1) 1
        (SPE.dijkstraRes netChain 1).length v = some d ∧
      SPE.CostReaches netChain 1 v d ∧
      ∀ c, SPE.CostReaches netChain 1 v c → d ≤ c) :=
  shortest_path_engine_optimal netChain 1 (by decide) (by decide) (by decide) (by
    intro e he
    have hs : netChain.streets =
        [((1, 2), ⟨0, 10, 50, 1, 10 / 50⟩), ((2, 3), ⟨1, 100, 140, 1, 100 / 140⟩)] := rfl
    rw [hs] at he
    simp only [List.mem_cons, List.not_mem_nil, or_false] at he
    rcases he with rfl | rfl <;> norm_num)

/-! ## Unknown trip origins are skipped (C9) -/

namespace SPE

variable {α : Type} [LinearOrderedField α]

theorem neighbors_empty (net : StreetNetwork α) (o : ℕ)
    (h : ∀ e ∈ net.streets, e.1.1 ≠ o) : neighbors net o = [] := by
  unfold neighbors
  rw [List.filterMap_eq_nil_iff]
  intro e he
  rw [if_neg (h e he)]

theorem dijkstraPrev_unknown_origin (net : StreetNetwork α) (o : ℕ)
    (Hend : ∀ e ∈ net.streets, e.1.1 ∈ net.nodes ∧ e.1.2 ∈ net.nodes)
    (Ho : o ∉ net.nodes) : dijkstraPrev net o = [] := by
  have hne : neighbors net o = [] :=
    neighbors_empty net o (fun e he hc => Ho (hc ▸ (Hend e he).1))
  have hfront : relaxAll net [o] o 0 ([] : List (DEntry α)) = [] := by
    unfold relaxAll
    rw [hne]
    rfl
  unfold dijkstraPrev dijkstraRes
  rw [hfront]
  cases hn : net.nodes.length with
  | zero => rfl
  | succ n => rfl

end SPE

namespace Simulation

variable {α : Type} [LinearOrderedField α]

theorem assign_goals_no_paths (net : StreetNetwork α) (o usage : ℕ) :
    ∀ (goals : List ℕ) (load : List ℕ),
      assign_goals net [] o usage load goals = some load := by
  intro goals
  induction goals with
  | nil => intro load; rfl
  | cons goal rest ih =>
    intro load
    unfold assign_goals
    have hg : assign_goal net [] o goal usage load = some load := by
      unfold assign_goal
      simp [alookup]
    rw [hg, Option.some_bind]
    exact ih load

theorem assign_origin_unknown (net : StreetNetwork α) (o : ℕ)
    (Hend : ∀ e ∈ net.streets, e.1.1 ∈ net.nodes ∧ e.1.2 ∈ net.nodes)
    (Ho : o ∉ net.nodes) (goals : List ℕ) (usage : ℕ) (load : List ℕ) :
    assign_origin net o goals usage load = some load := by
  unfold assign_origin
  rw [SPE.dijkstraPrev_unknown_origin net o Hend Ho]
  exact assign_goals_no_paths net o usage goals load

theorem assignAll_filter_unknown (net : StreetNetwork α) (usage : ℕ) (o : ℕ)
    (h : ∀ (goals : List ℕ) (load : List ℕ),
      assign_origin net o goals usage load = some load) :
    ∀ (trips : List (ℕ × List ℕ)) (load : List ℕ),
      assignAll net usage load trips =
        assignAll net usage load (trips.filter (fun t => t.1 ≠ o)) := by
  intro trips
  induction trips with
  | nil => intro load; rfl
  | cons t rest ih =>
    intro load
    by_cases hto : t.1 = o
    · have hfilter : (t :: rest).filter (fun t => t.1 ≠ o) =
          rest.filter (fun t => t.1 ≠ o) := by
        rw [List.filter_cons]
        simp [hto]
      rw [hfilter]
      have hskip : assign_origin net t.1 t.2 usage load = some load := hto ▸ h t.2 load
      calc assignAll net usage load (t :: rest)
          = (assign_origin net t.1 t.2 usage load).bind
              (fun load' => assignAll net usage load' rest) := rfl
        _ = assignAll net usage load rest := by rw [hskip, Option.some_bind]
        _ = assignAll net usage load (rest.filter (fun t => t.1 ≠ o)) := ih load
    · have hfilter : (t :: rest).filter (fun t => t.1 ≠ o) =
          t :: rest.filter (fun t => t.1 ≠ o) := by
        rw [List.filter_cons]
        simp [hto]
      rw [hfilter]
      show (assign_origin net t.1 t.2 usage load).bind
          (fun load' => assignAll net usage load' rest) =
        (assign_origin net t.1 t.2 usage load).bind
          (fun load' => assignAll net usage load' (rest.filter (fun t => t.1 ≠ o)))
      cases ha : assign_origin net t.1 t.2 usage load with
      | none => rfl
      | some load' =>
        rw [Option.some_bind, Option.some_bind]
        exact ih load'

end Simulation

/-- C9.  A trip whose origin node is not present in the graph contributes no
load and does not abort the step: assigning such an origin is a successful
no-op (the engine returns an empty predecessor map for it, so every goal is
skipped), and the whole step computes exactly the same traffic load as the
same step with that origin's trips removed. -/
theorem step_skips_unknown_origin (sim : SimulationState ℝ) (o : ℕ)
    (Hend : ∀ e ∈ sim.street_network.streets,
      e.1.1 ∈ sim.street_network.nodes ∧ e.1.2 ∈ sim.street_network.nodes)
    (Ho : o ∉ sim.street_network.nodes) :
    (∀ (goals : List ℕ) (usage : ℕ) (load : List ℕ),
      Simulation.assign_origin sim.street_network o goals usage load = some load) ∧
    (Simulation.step sim).map (fun s => s.traffic_load) =
      (Simulation.step
        { sim with trips := sim.trips.filter (fun t => t.1 ≠ o) }).map
          (fun s => s.traffic_load) := by
  constructor
  · intro goals usage load
    exact Simulation.assign_origin_unknown sim.street_network o Hend Ho goals usage load
  · unfold Simulation.step
    cases htl : sim.traffic_load with
    | none => rfl
    | some load =>
      simp only [htl, Option.some_bind]
      have Hend₁ : ∀ e ∈ (Simulation.reweight sim.street_network
          sim.jam_tolerance load).streets,
          e.1.1 ∈ (Simulation.reweight sim.street_network sim.jam_tolerance load).nodes ∧
          e.1.2 ∈ (Simulation.reweight sim.street_network sim.jam_tolerance load).nodes := by
        intro e he
        unfold Simulation.reweight at he ⊢
        simp only [List.mem_map] at he
        obtain ⟨e₀, he₀, rfl⟩ := he
        exact Hend e₀ he₀
      have Ho₁ : o ∉ (Simulation.reweight sim.street_network
          sim.jam_tolerance load).nodes := Ho
      have hskip := Simulation.assign_origin_unknown _ o Hend₁ Ho₁
      rw [Simulation.assignAll_filter_unknown _ settings_trip_volume o
        (fun goals ld => hskip goals settings_trip_volume ld) sim.trips]
      rw [Option.map_map, Option.map_map]
      rfl

/-- A simulation over `netOneReal` whose single trip has unknown origin 5. -/
noncomputable def simRealUnknown : SimulationState ℝ :=
  ⟨netOneReal, [(5, [1])], 0, 0, some [0]⟩

/-- Witness for C9 on the concrete one-street simulation with a trip from
the unknown origin 5. -/
theorem step_skips_unknown_origin_witness :
    (∀ (goals : List ℕ) (usage : ℕ) (load : List ℕ),
      Simulation.assign_origin simRealUnknown.street_network 5 goals usage load =
        some load) ∧
    (Simulation.step simRealUnknown).map (fun s => s.traffic_load) =
      (Simulation.step
        { simRealUnknown with
            trips := simRealUnknown.trips.filter (fun t => t.1 ≠ 5) }).map
          (fun s => s.traffic_load) :=
  step_skips_unknown_origin simRealUnknown 5
    (by
      intro e he
      have hs : simRealUnknown.street_network.streets =
          [((1, 2), ⟨0, 10, 50, 1, 10 / 50⟩)] := rfl
      rw [hs] at he
      simp only [List.mem_singleton] at he
      subst he
      exact ⟨by decide, by decide⟩)
    (by decide)
